import Mathlib

/-
Verification of the edflow iterator/hook engine
(`edflow/iterators/model_iterator.py`) and the CelebA dataset setup check
(`edflow/datasets/celeba.py`).

The iterator is embedded as an executable state machine.  Program state is
`St`; every externally observable action (hook lifecycle calls, batch pulls,
fetch-graph runs, stream resets, the fallback warning, global-step increment
calls, `sys.exit`) is recorded in an event trace.  Python exceptions are
modelled by returning `St × Option Err`: `none` means normal return, `some e`
means the exception `e` is propagating.  Lazy split thunks are modelled as
functions `St → St × Option Err` handed to `run_hooks` as data, exactly as the
source hands closures to hooks through the `results` dictionary.
-/

namespace Edflow

/-- Names of the two data splits handled by the iterator's `batches`
registry (the "train" split is mandatory, "validation" optional). -/
inductive Split where
  | train
  | validation
deriving DecidableEq

/-- Exceptions: the `ShutdownRequest` raised by the SIGTERM handler, or an
arbitrary user/hook exception identified by a number. -/
inductive Err where
  | shutdownRequest
  | userErr (n : Nat)
deriving DecidableEq

/-- Observable events of a run, recorded in order of occurrence. -/
inductive Ev where
  | before_step (h : Nat) (idx : Nat)
  | after_step (h : Nat) (idx : Nat)
  | before_epoch (h : Nat) (idx : Nat)
  | after_epoch (h : Nat) (idx : Nat)
  | at_exception (h : Nat) (e : Err)
  | pull (sp : Split)
  | runFetch (sp : Split)
  | resetEv (sp : Split)
  | warn
  | incr
  | exitCode (n : Nat)
deriving DecidableEq

/-- Modelled from the spec: the Split Stream contract (spec section 6) of an
external collaborator whose code is not part of this repository.  A stream
produces batches on demand, exposes an "epoch boundary just crossed" flag
readable after each pull, supports `reset()`, and reports its length in
batches per epoch.  We model a cycling stream: `pos` counts pulls since the
last reset, and the boundary flag is raised exactly after a multiple of
`length` pulls. -/
structure SplitStream where
  length : Nat
  pos : Nat
deriving DecidableEq

/-- Pull the next batch: advances the stream position. -/
def SplitStream.pullOne (s : SplitStream) : SplitStream :=
  { s with pos := s.pos + 1 }

/-- The "new epoch just started" flag, true after every `length` pulls. -/
def SplitStream.is_new_epoch (s : SplitStream) : Bool :=
  s.pos % s.length == 0 && s.pos != 0

/-- `reset()`: back to the start of the stream. -/
def SplitStream.reset (s : SplitStream) : SplitStream :=
  { s with pos := 0 }

/-- The configuration options read by the iterator: `test_mode`
(`config.get("test_mode", False)`) and the optional absolute step budget
`num_steps` (`config.get("num_steps", float("inf"))`, `none` = infinity). -/
structure Config where
  test_mode : Bool
  num_steps : Option Nat
deriving DecidableEq

/-- A hook's behaviour, indexed by the dispatch index: whether each lifecycle
callback raises (and which exception), and which split thunks the hook
invokes from inside its `after_step` body (hooks receive the lazy thunks
through the `results` dictionary and may call them; `before_step`,
`before_epoch` and `after_epoch` receive no thunks). -/
structure Hook where
  failBeforeStep : Nat → Option Err
  failAfterStep : Nat → Option Err
  failBeforeEpoch : Nat → Option Err
  failAfterEpoch : Nat → Option Err
  invokeOnAfterStep : Nat → List Split

/-- The iterator's immutable data: configuration, `hook_freq`, `num_epochs`,
and the two ordered hook registries (`self.hooks` and `self.epoch_hooks`),
each hook tagged with a numeric identity used in trace events. -/
structure It where
  config : Config
  hook_freq : Nat
  num_epochs : Nat
  hooks : List (Nat × Hook)
  epoch_hooks : List (Nat × Hook)

/-- Mutable program state: the step counters, the current split marker, the
two split streams (`validation = none` when no validation iterator was
supplied), the aliasing flag set by the test-mode fallback
(`batches["validation"] = batches["train"]` makes both names denote the same
stream object), the per-tick `active` flag of the epoch-split phase, and the
event trace. -/
structure St where
  global_step : Nat
  batch_step : Nat
  epoch_step : Nat
  cur_split : Option Split
  train : SplitStream
  validation : Option SplitStream
  valIsTrain : Bool
  active : Bool
  trace : List Ev
deriving DecidableEq

/-- Append an event to the trace. -/
def St.emit (s : St) (e : Ev) : St :=
  { s with trace := s.trace ++ [e] }

/-- The stream a split name denotes (after the fallback, "validation"
denotes the train stream object). -/
def St.getStream (s : St) (sp : Split) : SplitStream :=
  match sp with
  | .train => s.train
  | .validation => if s.valIsTrain then s.train else (s.validation.getD s.train)

/-- Store back the stream a split name denotes. -/
def St.setStream (s : St) (sp : Split) (st : SplitStream) : St :=
  match sp with
  | .train => { s with train := st }
  | .validation =>
    if s.valIsTrain then { s with train := st } else { s with validation := some st }

/-- The keys of the pruned `batches` dictionary, in insertion order. -/
def splitsOf (s : St) : List Split :=
  if s.validation.isSome || s.valIsTrain then [Split.train, Split.validation]
  else [Split.train]

/-- A lazy split thunk as handed to hooks: runs on the state, may raise. -/
def ThunkFn : Type := St → St × Option Err

/-- Exception propagation: continue with `g` on normal return, abort on a
raised exception. -/
def bindE (r : St × Option Err) (g : St → St × Option Err) : St × Option Err :=
  match r with
  | (s', some e) => (s', some e)
  | (s', none) => g s'

/-- `increment_global_step`: adds one to the global step unless
`test_mode` is set.  The `incr` event marks the call (one per inner tick). -/
def increment_global_step (it : It) (s : St) : St :=
  let s := s.emit .incr
  if it.config.test_mode then s else { s with global_step := s.global_step + 1 }

/-- One hook's `before_step(index, fetches, feeds, batch)` call: recorded,
then the hook either returns or raises. -/
def hookBeforeStep (idx : Nat) (p : Nat × Hook) (s : St) : St × Option Err :=
  (s.emit (.before_step p.1 idx), p.2.failBeforeStep idx)

/-- One hook's `before_epoch(index)` call. -/
def hookBeforeEpoch (idx : Nat) (p : Nat × Hook) (s : St) : St × Option Err :=
  (s.emit (.before_epoch p.1 idx), p.2.failBeforeEpoch idx)

/-- One hook's `after_epoch(index)` call. -/
def hookAfterEpoch (idx : Nat) (p : Nat × Hook) (s : St) : St × Option Err :=
  (s.emit (.after_epoch p.1 idx), p.2.failAfterEpoch idx)

/-- Look up the thunk for a split in the `results` structure. -/
def lookupThunk : List (Split × ThunkFn) → Split → Option ThunkFn
  | [], _ => none
  | (sp', t) :: rest, sp => if sp' = sp then some t else lookupThunk rest sp

/-- Invoke, in order, the thunks for the named splits that are present in
the `results` structure; the first raised exception aborts. -/
def invokeThunks (results : List (Split × ThunkFn)) : List Split → St → St × Option Err
  | [], s => (s, none)
  | sp :: rest, s =>
    match lookupThunk results sp with
    | none => invokeThunks results rest s
    | some t => bindE (t s) (invokeThunks results rest)

/-- One hook's `after_step(index, results)` call: recorded, then the hook
invokes the thunks it chooses to materialize, then returns or raises. -/
def hookAfterStep (idx : Nat) (results : List (Split × ThunkFn)) (p : Nat × Hook)
    (s : St) : St × Option Err :=
  bindE (invokeThunks results (p.2.invokeOnAfterStep idx)
          (s.emit (.after_step p.1 idx)))
    (fun s' => (s', p.2.failAfterStep idx))

/-- Dispatch one lifecycle callback over a hook list in registration order;
the first raised exception aborts the remaining dispatch. -/
def dispatchHooks (f : Nat × Hook → St → St × Option Err) :
    List (Nat × Hook) → St → St × Option Err
  | [], s => (s, none)
  | p :: rest, s => bindE (f p s) (dispatchHooks f rest)

/-- `run_hooks(index, fetches, feeds, batch, results, before, epoch_hooks)`.
`hasFetches`/`hasFeeds` model `fetches is not None` / `feeds is not None`;
`results` models the `results` argument (`none` = absent, otherwise the
per-split thunks it carries).  `is_step` and the sampling `condition`
are exactly the source's:
`is_step = (fetches is not None and feeds is not None) or results is not None`,
`condition = global_step % hook_freq == 0 or not is_step`. -/
def run_hooks (it : It) (index : Nat) (hasFetches : Bool) (hasFeeds : Bool)
    (results : Option (List (Split × ThunkFn))) (before : Bool)
    (epoch_hooks : Bool) (s : St) : St × Option Err :=
  let is_step := (hasFetches && hasFeeds) || results.isSome
  let condition := (s.global_step % it.hook_freq == 0) || !is_step
  let hooks := if epoch_hooks then it.epoch_hooks else it.hooks
  if condition then
    if before then
      if is_step then dispatchHooks (hookBeforeStep index) hooks s
      else dispatchHooks (hookBeforeEpoch index) hooks s
    else
      if is_step then dispatchHooks (hookAfterStep index (results.getD [])) hooks s
      else dispatchHooks (hookAfterEpoch index) hooks s
  else (s, none)

/-- Body shared by the two `lazy_split_op` closures: set `self._split`,
pull the next batch from the split, build feeds, run the hooks'
`before_step` (step-scoped or epoch-scoped according to the phase), then
evaluate the fetch graph.  `setActive` marks the epoch-phase variant which
sets the `nonlocal active` flag when invoked. -/
def split_op_core (it : It) (eh : Bool) (setActive : Bool) (index : Nat)
    (sp : Split) : ThunkFn :=
  fun s =>
    let s := { s with cur_split := some sp,
                      active := if setActive then true else s.active }
    let s := (s.setStream sp ((s.getStream sp).pullOne)).emit (.pull sp)
    bindE (run_hooks it index true true none true eh s)
      (fun s' => (s'.emit (.runFetch sp), none))

/-- The inner-loop `lazy_split_op(split)` closure. -/
def lazy_split_op (it : It) (index : Nat) (sp : Split) : ThunkFn :=
  split_op_core it false false index sp

/-- The epoch-split-phase `lazy_split_op(split)` closure (sets `active`). -/
def lazy_split_op_epoch (it : It) (index : Nat) (sp : Split) : ThunkFn :=
  split_op_core it true true index sp

/-- One tick of the fast inner batch loop: build one thunk per registered
split, dispatch `after_step` to the step-scoped hooks (gated), increment the
global step, then test the early-termination condition
(`batches["train"].is_new_epoch or global_step >= num_steps`); on early
termination reset the train stream.  The returned flag is `true` when the
loop breaks. -/
def innerTick (it : It) (index : Nat) (s : St) : St × Option Err × Bool :=
  let s := { s with batch_step := index }
  let results := (splitsOf s).map (fun sp => (sp, lazy_split_op it index sp))
  match run_hooks it index false false (some results) false false s with
  | (s', some e) => (s', some e, false)
  | (s', none) =>
    let s2 := increment_global_step it s'
    let brk := (s2.getStream .train).is_new_epoch ||
      (match it.config.num_steps with
       | some n => decide (n ≤ s2.global_step)
       | none => false)
    if brk then
      ((s2.setStream .train ((s2.getStream .train).reset)).emit (.resetEv .train),
       none, true)
    else (s2, none, false)

/-- The fast inner batch loop over the batch indices of one epoch. -/
def innerLoop (it : It) : List Nat → St → St × Option Err
  | [], s => (s, none)
  | i :: rest, s =>
    match innerTick it i s with
    | (s', some e, _) => (s', some e)
    | (s', none, true) => (s', none)
    | (s', none, false) => innerLoop it rest s'

/-- One tick of the per-split epoch phase: clear `active`, offer exactly one
epoch-phase thunk for this split to the epoch-scoped hooks (gated), then
break (resetting the split) when the split crossed its epoch boundary or no
hook invoked the thunk. -/
def epochTick (it : It) (sp : Split) (index : Nat) (s : St) :
    St × Option Err × Bool :=
  let s := { s with batch_step := index, active := false }
  let results := [(sp, lazy_split_op_epoch it index sp)]
  match run_hooks it index false false (some results) false true s with
  | (s', some e) => (s', some e, false)
  | (s', none) =>
    if (s'.getStream sp).is_new_epoch || !s'.active then
      ((s'.setStream sp ((s'.getStream sp).reset)).emit (.resetEv sp), none, true)
    else (s', none, false)

/-- The per-split epoch-phase batch loop. -/
def epochSplitLoop (it : It) (sp : Split) : List Nat → St → St × Option Err
  | [], s => (s, none)
  | i :: rest, s =>
    match epochTick it sp i s with
    | (s', some e, _) => (s', some e)
    | (s', none, true) => (s', none)
    | (s', none, false) => epochSplitLoop it sp rest s'

/-- The epoch phase for one split: epoch-scoped hooks' `before_epoch`, the
per-split batch loop bounded by `len(batches[split])`, epoch-scoped hooks'
`after_epoch`. -/
def epochSplitPhaseOne (it : It) (epoch_step : Nat) (sp : Split) (s : St) :
    St × Option Err :=
  bindE (run_hooks it epoch_step false false none true true s)
    (fun s' =>
      bindE (epochSplitLoop it sp (List.range (s'.getStream sp).length) s')
        (run_hooks it epoch_step false false none false true))

/-- The epoch phase over all registered splits, in registry order. -/
def epochSplitPhase (it : It) (epoch_step : Nat) : List Split → St → St × Option Err
  | [], s => (s, none)
  | sp :: rest, s =>
    bindE (epochSplitPhaseOne it epoch_step sp s) (epochSplitPhase it epoch_step rest)

/-- One epoch of `_iterate`: set `epoch_step`, step-scoped hooks'
`before_epoch`, the fast inner loop (`num_steps = 0` in test mode, else the
train stream's length), step-scoped hooks' `after_epoch`, then the per-split
epoch phase. -/
def oneEpoch (it : It) (epoch_step : Nat) (s : St) : St × Option Err :=
  let s := { s with epoch_step := epoch_step }
  bindE (run_hooks it epoch_step false false none true false s)
    (fun s' =>
      let num_steps := if it.config.test_mode then 0 else (s'.getStream .train).length
      bindE (innerLoop it (List.range num_steps) s')
        (fun s2 =>
          bindE (run_hooks it epoch_step false false none false false s2)
            (fun s3 => epochSplitPhase it epoch_step (splitsOf s3) s3)))

/-- The loop over epoch indices. -/
def epochLoop (it : It) : List Nat → St → St × Option Err
  | [], s => (s, none)
  | i :: rest, s => bindE (oneEpoch it i s) (epochLoop it rest)

/-- `_iterate`: apply the test-mode validation fallback (warning +
`batches["validation"] = batches["train"]`), then run
`1 if test_mode else num_epochs` epochs. -/
def _iterate (it : It) (s : St) : St × Option Err :=
  let s :=
    if it.config.test_mode && s.validation.isNone && !s.valIsTrain then
      { s.emit .warn with valIsTrain := true }
    else s
  let ne := if it.config.test_mode then 1 else it.num_epochs
  epochLoop it (List.range ne) s

/-- `_handle_exception(e)`: `at_exception(e)` on every hook of `self.hooks`,
in registration order. -/
def _handle_exception (it : It) (e : Err) (s : St) : St :=
  it.hooks.foldl (fun s p => s.emit (.at_exception p.1 e)) s

/-- `iterate`: run `_iterate`; on an exception, notify hooks via
`_handle_exception` and re-raise the same exception. -/
def iterate (it : It) (s : St) : St × Option Err :=
  match _iterate it s with
  | (s', none) => (s', none)
  | (s', some e) => (_handle_exception it e s', some e)

/-- `_handle_sigterm`: construct a `ShutdownRequest`, route it through
`_handle_exception`, then `sys.exit(0)`. -/
def _handle_sigterm (it : It) (s : St) : St :=
  (_handle_exception it Err.shutdownRequest s).emit (.exitCode 0)

/-
Feed payloads: `make_feeds(batch)` is `walk(batch, lambda val: val)`.
Nested batch structures are modelled as trees whose leaves carry the heap
address of an array-like object; a heap `Nat → Int` gives each address its
current data, so aliasing between payloads is observable through mutation.
-/

/-- A nested mapping/sequence batch structure: interior nodes are the
containers, leaves are references (heap addresses) to array-like data. -/
inductive PVal where
  | leaf (addr : Nat)
  | node (cs : List PVal)

mutual

/-- Modelled from the spec: `edflow.util.walk` (imported by the iterator,
code not under `src/`), per the Fetch Graph Evaluator contract of spec
section 4.2 — applying a callable at every leaf of an arbitrarily nested
mapping/sequence structure and returning the isomorphic structure of the
callable's results, without re-ordering, deduplication or caching. -/
def walk (f : Nat → Nat) : PVal → PVal
  | .leaf a => .leaf (f a)
  | .node cs => .node (walkList f cs)

/-- `walk` mapped over the children of a container node. -/
def walkList (f : Nat → Nat) : List PVal → List PVal
  | [] => []
  | v :: vs => walk f v :: walkList f vs

end

/-- `make_feeds(batch)`: `walk(batch, lambda val: val)` — the leaf callable
is the identity, so each leaf of the feed payload is the very object stored
at the corresponding leaf of the raw batch. -/
def make_feeds (batch : PVal) : PVal :=
  walk (fun val => val) batch

mutual

/-- The heap addresses of a structure's leaves, in traversal order. -/
def leafAddrs : PVal → List Nat
  | .leaf a => [a]
  | .node cs => leafAddrsList cs

/-- `leafAddrs` over the children of a container node. -/
def leafAddrsList : List PVal → List Nat
  | [] => []
  | v :: vs => leafAddrs v ++ leafAddrsList vs

end

/-- The data observed through a structure's leaves under a heap. -/
def readVal (heap : Nat → Int) (v : PVal) : List Int :=
  (leafAddrs v).map heap

/-
CelebA dataset setup (`edflow/datasets/celeba.py`).  `_prepare` parses
`list_eval_partition.txt` (rows of image id and partition code) and
`list_attr_celeba.txt` (rows whose first column is the image id and whose
remaining columns are the attributes), checks that the two tables have the
same number of rows, parses `identity_CelebA.txt`, and stores the pickled
data; `_load` then selects the rows of the configured split.  Fatal errors
(`raise ValueError`) are modelled with `Except String`.
-/

/-- The parsed contents of the three CelebA label files: each row of
`list_eval_partition.txt` is `(image_id, partition)`, each row of
`list_attr_celeba.txt` is `(image_id, attribute values)` (the `v[1:]` slice
drops the id column), each row of `identity_CelebA.txt` is
`(image_id, identity)`. -/
structure RawFiles where
  evalPartitionRows : List (String × Nat)
  attrRows : List (String × List Int)
  identityRows : List (String × Nat)

/-- The error message of the `ValueError` raised on mismatched tables. -/
def dataMismatchMsg : String :=
  "data files do not match"

/-- The data record `_prepare` pickles to `data.p`. -/
structure CelebAData where
  fname : List String
  partition : List Nat
  identity : List Nat
  attributes : List (List Int)
deriving DecidableEq

/-- The content directory prefixed to every file name. -/
def contentDir : String :=
  "img_align_celeba"

/-- The error message of the assertion on an unknown split name. -/
def invalidSplitMsg : String :=
  "invalid split"

/-- Default values used when indexing parsed columns. -/
def emptyStr : String :=
  ""

/-- `CelebA._prepare` on the not-yet-prepared path: parse the partition and
attribute tables, raise `ValueError("data files do not match")` when their
row counts differ, otherwise parse identities and assemble the data record. -/
def _prepare (files : RawFiles) : Except String CelebAData :=
  let list_eval_partition := files.evalPartitionRows.map (fun r => r.2)
  let fnames := files.evalPartitionRows.map (fun r => r.1)
  let list_attr_celeba := files.attrRows.map (fun r => r.2)
  if list_attr_celeba.length = list_eval_partition.length then
    let identity_celeba := files.identityRows.map (fun r => r.2)
    Except.ok
      { fname := fnames.map (fun s => contentDir ++ "/" ++ s),
        partition := list_eval_partition,
        identity := identity_celeba,
        attributes := list_attr_celeba }
  else Except.error dataMismatchMsg

/-- The split-selected labels `_load` exposes for serving examples. -/
structure CelebALabels where
  fname : List String
  partition : List Nat
  identity : List Nat
  attributes : List (List Int)
deriving DecidableEq

/-- The partition code of a split name (`train` 0, `val` 1, `test` 2). -/
def splitCode (split : String) : Option Nat :=
  if split = "train" then some 0
  else if split = "val" then some 1
  else if split = "test" then some 2
  else none

/-- `CelebA._load` on prepared data: assert the split name is valid, then
restrict every label column to the indices whose partition matches the
split's code. -/
def _load (d : CelebAData) (split : String) : Except String CelebALabels :=
  match splitCode split with
  | none => Except.error invalidSplitMsg
  | some code =>
    let idx := (List.range d.partition.length).filter
      (fun i => d.partition.getD i 0 = code)
    Except.ok
      { fname := idx.map (fun i => d.fname.getD i emptyStr),
        partition := idx.map (fun i => d.partition.getD i 0),
        identity := idx.map (fun i => d.identity.getD i 0),
        attributes := idx.map (fun i => d.attributes.getD i []) }

/-- `CelebA.__init__` on an unprepared root: `_prepare` then `_load`; any
error raised during preparation prevents the dataset from being constructed,
so no example is ever served. -/
def celebaInit (files : RawFiles) (split : String) : Except String CelebALabels :=
  (_prepare files).bind (fun d => _load d split)

/-
Predicates used by the theorems.
-/

/-- Global-step discipline between a state and a later state of the same
run: the global step never decreases; outside test mode it changes by
exactly the number of `increment_global_step` calls (`incr` events)
recorded in between; in test mode it never changes. -/
def GsFacts (it : It) (a b : St) : Prop :=
  a.global_step ≤ b.global_step ∧
    (it.config.test_mode = false →
      b.global_step + a.trace.count Ev.incr
        = a.global_step + b.trace.count Ev.incr) ∧
    (it.config.test_mode = true → b.global_step = a.global_step)

/-- Global-step discipline of a state transformer. -/
def GsOk (it : It) (f : St → St × Option Err) : Prop :=
  ∀ s, GsFacts it s (f s).1

/-- The property that every thunk of a `results` structure satisfies the
global-step discipline. -/
def GsOkThunks (it : It) (results : Option (List (Split × ThunkFn))) : Prop :=
  ∀ pr, pr ∈ results.getD [] → GsOk it pr.2

/-- No registered hook (step- or epoch-scoped) raises from any lifecycle
callback. -/
def NoFailHooks (it : It) : Prop :=
  ∀ p, (p ∈ it.hooks ∨ p ∈ it.epoch_hooks) →
    (∀ i, p.2.failBeforeStep i = none) ∧ (∀ i, p.2.failAfterStep i = none) ∧
    (∀ i, p.2.failBeforeEpoch i = none) ∧ (∀ i, p.2.failAfterEpoch i = none)

/-- A state transformer leaves the number of occurrences of the event `ev`
in the trace unchanged. -/
def CntEq (ev : Ev) (f : St → St × Option Err) : Prop :=
  ∀ s, (f s).1.trace.count ev = s.trace.count ev

/-- A state transformer adds at most `k` occurrences of the event `ev`. -/
def CntLe (ev : Ev) (f : St → St × Option Err) (k : Nat) : Prop :=
  ∀ s, (f s).1.trace.count ev ≤ s.trace.count ev + k

/-- The property that every thunk of a `results` structure preserves the
count of the event `ev`. -/
def CntEqThunks (ev : Ev) (results : Option (List (Split × ThunkFn))) : Prop :=
  ∀ pr, pr ∈ results.getD [] → CntEq ev pr.2

/-- Events that hook dispatch and thunk materialization can emit: the four
lifecycle events, batch pulls and fetch runs.  An event outside this set is
never added by `run_hooks`, whatever the hooks do with their thunks. -/
def NotDispatchEv (ev : Ev) : Prop :=
  (∀ h i, ev ≠ .before_step h i ∧ ev ≠ .after_step h i ∧
          ev ≠ .before_epoch h i ∧ ev ≠ .after_epoch h i) ∧
  (∀ sp, ev ≠ .pull sp ∧ ev ≠ .runFetch sp)

/-- A state transformer never raises. -/
def NoErr (f : St → St × Option Err) : Prop :=
  ∀ s, (f s).2 = none

/-- The property that no thunk of a `results` structure raises. -/
def NoErrThunks (results : Option (List (Split × ThunkFn))) : Prop :=
  ∀ pr, pr ∈ results.getD [] → NoErr pr.2

/-- A state transformer only appends to the trace. -/
def TraceMono (f : St → St × Option Err) : Prop :=
  ∀ s, s.trace <+: (f s).1.trace

/-- The property that every thunk of a `results` structure only appends to
the trace. -/
def TraceMonoThunks (results : Option (List (Split × ThunkFn))) : Prop :=
  ∀ pr, pr ∈ results.getD [] → TraceMono pr.2

/-- The four hook lifecycle events. -/
def HookEv (e : Ev) : Prop :=
  ∃ h i, e = Ev.before_step h i ∨ e = Ev.after_step h i ∨
         e = Ev.before_epoch h i ∨ e = Ev.after_epoch h i

/-- The events hook dispatch and thunk materialization can emit. -/
def DispatchEv (e : Ev) : Prop :=
  (∃ h i, e = Ev.before_step h i ∨ e = Ev.after_step h i ∨
          e = Ev.before_epoch h i ∨ e = Ev.after_epoch h i) ∨
  (∃ sp, e = Ev.pull sp ∨ e = Ev.runFetch sp)

/-- An abstract relation between run states that is preserved by everything
hook dispatch does: reflexive, transitive, insensitive to state changes that
touch neither the global step nor the trace, and preserved by emitting any
dispatch event. -/
structure DispatchRel (R : St → St → Prop) : Prop where
  refl : ∀ s, R s s
  trans : ∀ {a b c : St}, R a b → R b c → R a c
  pure_ok : ∀ {s s' : St}, s'.global_step = s.global_step → s'.trace = s.trace → R s s'
  emit_ok : ∀ (s : St) (e : Ev), DispatchEv e → R s (s.emit e)

/-- An abstract relation preserved by everything the whole driver does:
additionally preserved by stream resets, the fallback warning, exception
notification and the global-step increment of the given iterator. -/
structure DriverRel (it : It) (R : St → St → Prop) extends DispatchRel R : Prop where
  emit_reset : ∀ (s : St) (sp : Split), R s (s.emit (.resetEv sp))
  emit_warn : ∀ s : St, R s (s.emit .warn)
  emit_exc : ∀ (s : St) (h : Nat) (e : Err), R s (s.emit (.at_exception h e))
  incr_ok : ∀ s : St, R s (increment_global_step it s)

/-- Generic hypothesis on a `results` structure: every thunk it carries
takes any state to a related state. -/
def RelThunks (R : St → St → Prop) (results : Option (List (Split × ThunkFn))) : Prop :=
  ∀ pr, pr ∈ results.getD [] → ∀ s, R s (pr.2 s).1

/-
Concrete scenario data used by witnesses and counterexamples.
-/

/-- A hook that never raises and never invokes a thunk. -/
def noFailHook : Hook :=
  { failBeforeStep := fun _ => none, failAfterStep := fun _ => none,
    failBeforeEpoch := fun _ => none, failAfterEpoch := fun _ => none,
    invokeOnAfterStep := fun _ => [] }

/-- A hook that never raises and invokes the given thunks from `after_step`. -/
def invokerHook (sps : List Split) : Hook :=
  { noFailHook with invokeOnAfterStep := fun _ => sps }

/-- A fresh run state over a train stream of `L` batches and no validation
stream. -/
def st0 (L : Nat) : St :=
  { global_step := 0, batch_step := 0, epoch_step := 0, cur_split := none,
    train := { length := L, pos := 0 }, validation := none,
    valIsTrain := false, active := false, trace := [] }

/-- Scenario: one step hook, frequency 2 (iterator for the C1 scenarios). -/
def itFreq2 : It :=
  { config := { test_mode := false, num_steps := none },
    hook_freq := 2, num_epochs := 1, hooks := [(0, noFailHook)],
    epoch_hooks := [] }

/-- Scenario: the step hook with id 0 invokes the train thunk from
`after_step` and raises exception 5 from `before_step`; an epoch-scoped
hook with id 1 is registered. -/
def raiserHook : Hook :=
  { invokerHook [Split.train] with failBeforeStep := fun _ => some (Err.userErr 5) }

/-- Iterator for the C2 scenario: a raising step hook and an epoch hook. -/
def itRaise : It :=
  { config := { test_mode := false, num_steps := none },
    hook_freq := 1, num_epochs := 1, hooks := [(0, raiserHook)],
    epoch_hooks := [(1, noFailHook)] }

/-- Iterator with no hooks at all, frequency 1, one epoch. -/
def itNoHooks : It :=
  { config := { test_mode := false, num_steps := none },
    hook_freq := 1, num_epochs := 1, hooks := [], epoch_hooks := [] }

/-- Iterator whose single step hook invokes the train thunk twice from one
`after_step` call. -/
def itDouble : It :=
  { config := { test_mode := false, num_steps := none },
    hook_freq := 1, num_epochs := 1,
    hooks := [(0, invokerHook [Split.train, Split.train])], epoch_hooks := [] }

/-- Iterator whose single step hook invokes the train thunk once per tick. -/
def itPuller : It :=
  { config := { test_mode := false, num_steps := none },
    hook_freq := 1, num_epochs := 1,
    hooks := [(0, invokerHook [Split.train])], epoch_hooks := [] }

/-- Iterator in test mode (dry run) with one benign step hook. -/
def itTest : It :=
  { config := { test_mode := true, num_steps := none },
    hook_freq := 1, num_epochs := 7, hooks := [(0, noFailHook)],
    epoch_hooks := [] }

/-- Iterator with one benign step hook and one benign epoch hook, used for
the shutdown scenario. -/
def itTwoScopes : It :=
  { config := { test_mode := false, num_steps := none },
    hook_freq := 1, num_epochs := 1, hooks := [(0, noFailHook)],
    epoch_hooks := [(1, noFailHook)] }

/-- Iterator with one epoch-scoped hook that invokes the offered thunk,
frequency 2, used for the C7 witness. -/
def itEpochHooks : It :=
  { config := { test_mode := false, num_steps := none },
    hook_freq := 2, num_epochs := 1, hooks := [],
    epoch_hooks := [(3, invokerHook [Split.train])] }

/-- A concrete nested batch: one container holding one array at address 0. -/
def pb0 : PVal :=
  PVal.node [PVal.leaf 0]

/-- A concrete heap assigning 0 to every address. -/
def h0 : Nat → Int :=
  fun _ => 0

/-- Parsed CelebA label files whose partition table has one row but whose
attribute table is empty. -/
def filesBad : RawFiles :=
  { evalPartitionRows := [("000001.jpg", 0)], attrRows := [],
    identityRows := [("000001.jpg", 1)] }

/-- The train split name. -/
def splitTrain : String :=
  "train"

/-
Basic lemmas about the state primitives.
-/

theorem emit_global_step (s : St) (e : Ev) :
    (s.emit e).global_step = s.global_step :=
  rfl

theorem emit_trace (s : St) (e : Ev) :
    (s.emit e).trace = s.trace ++ [e] :=
  rfl

theorem count_snoc_ne (t : List Ev) (e ev : Ev) (h : e ≠ ev) :
    (t ++ [e]).count ev = t.count ev := by
  simp [List.count_append, List.count_singleton', h]

theorem count_snoc_eq (t : List Ev) (ev : Ev) :
    (t ++ [ev]).count ev = t.count ev + 1 := by
  simp [List.count_append]

theorem setStream_global_step (s : St) (sp : Split) (st : SplitStream) :
    (s.setStream sp st).global_step = s.global_step := by
  cases sp
  · rfl
  · simp only [St.setStream]
    split
    · rfl
    · rfl

theorem setStream_trace (s : St) (sp : Split) (st : SplitStream) :
    (s.setStream sp st).trace = s.trace := by
  cases sp
  · rfl
  · simp only [St.setStream]
    split
    · rfl
    · rfl

theorem lookupThunk_mem (l : List (Split × ThunkFn)) (sp : Split) (t : ThunkFn)
    (h : lookupThunk l sp = some t) : ∃ sp', (sp', t) ∈ l := by
  induction l with
  | nil => simp [lookupThunk] at h
  | cons p rest ih =>
    obtain ⟨sp', t'⟩ := p
    simp only [lookupThunk] at h
    split at h
    · injection h with h'
      subst h'
      exact ⟨sp', List.mem_cons_self _ _⟩
    · obtain ⟨a, ha⟩ := ih h
      exact ⟨a, List.mem_cons_of_mem _ ha⟩

theorem dispatchEv_ne_incr {e : Ev} (h : DispatchEv e) : e ≠ Ev.incr := by
  rcases h with ⟨hh, hi, hc⟩ | ⟨sp, hc⟩
  · rcases hc with rfl | rfl | rfl | rfl
    · simp
    · simp
    · simp
    · simp
  · rcases hc with rfl | rfl
    · simp
    · simp

theorem dispatchEv_ne {e ev : Ev} (he : DispatchEv e) (hv : NotDispatchEv ev) :
    e ≠ ev := by
  rcases he with ⟨hh, hi, hc⟩ | ⟨sp, hc⟩
  · rcases hc with rfl | rfl | rfl | rfl
    · exact fun h => (hv.1 hh hi).1 h.symm
    · exact fun h => (hv.1 hh hi).2.1 h.symm
    · exact fun h => (hv.1 hh hi).2.2.1 h.symm
    · exact fun h => (hv.1 hh hi).2.2.2 h.symm
  · rcases hc with rfl | rfl
    · exact fun h => (hv.2 sp).1 h.symm
    · exact fun h => (hv.2 sp).2 h.symm

/-
The parametric preservation family: any `DispatchRel` relation is preserved
by the dispatch layer, any `DriverRel` relation by the whole driver.
-/

theorem rel_bindE {R : St → St → Prop} (D : DispatchRel R) {s : St}
    (r : St × Option Err) (g : St → St × Option Err)
    (h1 : R s r.1) (h2 : ∀ x, R x (g x).1) : R s (bindE r g).1 := by
  obtain ⟨s1, e1⟩ := r
  cases e1 with
  | none => exact D.trans h1 (h2 s1)
  | some e => exact h1

theorem rel_hookBeforeStep {R : St → St → Prop} (D : DispatchRel R)
    (idx : Nat) (p : Nat × Hook) (s : St) : R s (hookBeforeStep idx p s).1 :=
  D.emit_ok s _ (Or.inl ⟨p.1, idx, Or.inl rfl⟩)

theorem rel_hookBeforeEpoch {R : St → St → Prop} (D : DispatchRel R)
    (idx : Nat) (p : Nat × Hook) (s : St) : R s (hookBeforeEpoch idx p s).1 :=
  D.emit_ok s _ (Or.inl ⟨p.1, idx, Or.inr (Or.inr (Or.inl rfl))⟩)

theorem rel_hookAfterEpoch {R : St → St → Prop} (D : DispatchRel R)
    (idx : Nat) (p : Nat × Hook) (s : St) : R s (hookAfterEpoch idx p s).1 :=
  D.emit_ok s _ (Or.inl ⟨p.1, idx, Or.inr (Or.inr (Or.inr rfl))⟩)

theorem rel_invokeThunks {R : St → St → Prop} (D : DispatchRel R)
    (results : List (Split × ThunkFn))
    (h : ∀ pr, pr ∈ results → ∀ s, R s (pr.2 s).1) (sps : List Split) (s : St) :
    R s (invokeThunks results sps s).1 := by
  induction sps generalizing s with
  | nil => exact D.refl s
  | cons sp rest ih =>
    unfold invokeThunks
    cases hl : lookupThunk results sp with
    | none => exact ih s
    | some t =>
      obtain ⟨sp', hmem⟩ := lookupThunk_mem results sp t hl
      exact rel_bindE D (t s) _ (h (sp', t) hmem s) ih

theorem rel_hookAfterStep {R : St → St → Prop} (D : DispatchRel R) (idx : Nat)
    (results : List (Split × ThunkFn))
    (h : ∀ pr, pr ∈ results → ∀ s, R s (pr.2 s).1) (p : Nat × Hook) (s : St) :
    R s (hookAfterStep idx results p s).1 := by
  unfold hookAfterStep
  refine rel_bindE D _ _ ?_ ?_
  · refine D.trans (D.emit_ok s _ (Or.inl ⟨p.1, idx, Or.inr (Or.inl rfl)⟩)) ?_
    exact rel_invokeThunks D results h (p.2.invokeOnAfterStep idx) _
  · intro x
    exact D.refl x

theorem rel_dispatchHooks {R : St → St → Prop} (D : DispatchRel R)
    (f : Nat × Hook → St → St × Option Err)
    (hf : ∀ p s, R s (f p s).1) (hooks : List (Nat × Hook)) (s : St) :
    R s (dispatchHooks f hooks s).1 := by
  induction hooks generalizing s with
  | nil => exact D.refl s
  | cons p rest ih =>
    unfold dispatchHooks
    exact rel_bindE D (f p s) _ (hf p s) ih

theorem rel_run_hooks {R : St → St → Prop} (D : DispatchRel R) (it : It)
    (index : Nat) (hasFetches hasFeeds : Bool)
    (results : Option (List (Split × ThunkFn))) (before epoch_hooks : Bool)
    (h : RelThunks R results) (s : St) :
    R s (run_hooks it index hasFetches hasFeeds results before epoch_hooks s).1 := by
  unfold run_hooks
  dsimp only
  split
  · split
    · split
      · exact rel_dispatchHooks D _ (rel_hookBeforeStep D index) _ s
      · exact rel_dispatchHooks D _ (rel_hookBeforeEpoch D index) _ s
    · split
      · exact rel_dispatchHooks D _ (rel_hookAfterStep D index (results.getD []) h) _ s
      · exact rel_dispatchHooks D _ (rel_hookAfterEpoch D index) _ s
  · exact D.refl s

theorem relThunks_none (R : St → St → Prop) : RelThunks R none := by
  intro pr h
  simp [Option.getD] at h

theorem rel_pure_emit {R : St → St → Prop} (D : DispatchRel R) {s s' : St}
    (e : Ev) (hg : s'.global_step = s.global_step) (ht : s'.trace = s.trace)
    (hd : DispatchEv e) : R s (s'.emit e) :=
  D.trans (D.pure_ok hg ht) (D.emit_ok s' e hd)

theorem rel_split_op_core {R : St → St → Prop} (D : DispatchRel R) (it : It)
    (eh sa : Bool) (index : Nat) (sp : Split) (s : St) :
    R s (split_op_core it eh sa index sp s).1 := by
  unfold split_op_core
  dsimp only
  refine rel_bindE D _ _ ?_ ?_
  · refine D.trans ?_
      (rel_run_hooks D it index true true none true eh (relThunks_none R) _)
    exact rel_pure_emit D _ ((setStream_global_step _ sp _).trans rfl)
      ((setStream_trace _ sp _).trans rfl) (Or.inr ⟨sp, Or.inl rfl⟩)
  · intro x
    exact D.emit_ok x _ (Or.inr ⟨sp, Or.inr rfl⟩)

theorem relThunks_lazy {R : St → St → Prop} (D : DispatchRel R) (it : It)
    (i : Nat) (sps : List Split) :
    RelThunks R (some (sps.map (fun sp => (sp, lazy_split_op it i sp)))) := by
  intro pr hmem
  simp only [Option.getD] at hmem
  obtain ⟨sp, _, rfl⟩ := List.mem_map.mp hmem
  intro s
  exact rel_split_op_core D it false false i sp s

theorem relThunks_lazyEpoch {R : St → St → Prop} (D : DispatchRel R) (it : It)
    (i : Nat) (sp : Split) :
    RelThunks R (some [(sp, lazy_split_op_epoch it i sp)]) := by
  intro pr hmem
  simp only [Option.getD, List.mem_singleton] at hmem
  subst hmem
  intro s
  exact rel_split_op_core D it true true i sp s

theorem rel_innerTick {it : It} {R : St → St → Prop} (D : DriverRel it R)
    (i : Nat) (s : St) : R s (innerTick it i s).1 := by
  unfold innerTick
  dsimp only
  have h0 : R s ({ s with batch_step := i } : St) := D.pure_ok rfl rfl
  have hrh := rel_run_hooks D.toDispatchRel it i false false
      (some ((splitsOf { s with batch_step := i }).map
        (fun sp => (sp, lazy_split_op it i sp)))) false false
      (relThunks_lazy D.toDispatchRel it i _) { s with batch_step := i }
  rcases hr : run_hooks it i false false
      (some ((splitsOf { s with batch_step := i }).map
        (fun sp => (sp, lazy_split_op it i sp)))) false false
      { s with batch_step := i } with ⟨s1, e1⟩
  rw [hr] at hrh
  cases e1 with
  | some e => exact D.trans h0 hrh
  | none =>
    have hall : R s (increment_global_step it s1) :=
      D.trans (D.trans h0 hrh) (D.incr_ok s1)
    dsimp only
    split
    · refine D.trans hall ?_
      refine D.trans ?_ (D.emit_reset _ Split.train)
      exact D.pure_ok (setStream_global_step _ _ _) (setStream_trace _ _ _)
    · exact hall

theorem rel_innerLoop {it : It} {R : St → St → Prop} (D : DriverRel it R)
    (l : List Nat) (s : St) : R s (innerLoop it l s).1 := by
  induction l generalizing s with
  | nil => exact D.refl s
  | cons i rest ih =>
    unfold innerLoop
    have h1 := rel_innerTick D i s
    rcases ht : innerTick it i s with ⟨s1, e1, b1⟩
    rw [ht] at h1
    cases e1 with
    | some e => exact h1
    | none =>
      cases b1 with
      | true => exact h1
      | false => exact D.trans h1 (ih s1)

theorem rel_epochTick {it : It} {R : St → St → Prop} (D : DriverRel it R)
    (sp : Split) (i : Nat) (s : St) : R s (epochTick it sp i s).1 := by
  unfold epochTick
  dsimp only
  have h0 : R s ({ s with batch_step := i, active := false } : St) :=
    D.pure_ok rfl rfl
  have hrh := rel_run_hooks D.toDispatchRel it i false false
      (some [(sp, lazy_split_op_epoch it i sp)]) false true
      (relThunks_lazyEpoch D.toDispatchRel it i sp)
      { s with batch_step := i, active := false }
  rcases hr : run_hooks it i false false
      (some [(sp, lazy_split_op_epoch it i sp)]) false true
      { s with batch_step := i, active := false } with ⟨s1, e1⟩
  rw [hr] at hrh
  cases e1 with
  | some e => exact D.trans h0 hrh
  | none =>
    have hall := D.trans h0 hrh
    dsimp only
    split
    · refine D.trans hall ?_
      refine D.trans ?_ (D.emit_reset _ sp)
      exact D.pure_ok (setStream_global_step _ _ _) (setStream_trace _ _ _)
    · exact hall

theorem rel_epochSplitLoop {it : It} {R : St → St → Prop} (D : DriverRel it R)
    (sp : Split) (l : List Nat) (s : St) : R s (epochSplitLoop it sp l s).1 := by
  induction l generalizing s with
  | nil => exact D.refl s
  | cons i rest ih =>
    unfold epochSplitLoop
    have h1 := rel_epochTick D sp i s
    rcases ht : epochTick it sp i s with ⟨s1, e1, b1⟩
    rw [ht] at h1
    cases e1 with
    | some e => exact h1
    | none =>
      cases b1 with
      | true => exact h1
      | false => exact D.trans h1 (ih s1)

theorem rel_epochSplitPhaseOne {it : It} {R : St → St → Prop} (D : DriverRel it R)
    (ep : Nat) (sp : Split) (s : St) : R s (epochSplitPhaseOne it ep sp s).1 := by
  unfold epochSplitPhaseOne
  refine rel_bindE D.toDispatchRel _ _ ?_ ?_
  · exact rel_run_hooks D.toDispatchRel it ep false false none true true
      (relThunks_none R) s
  · intro x
    refine rel_bindE D.toDispatchRel _ _ ?_ ?_
    · exact rel_epochSplitLoop D sp _ x
    · intro y
      exact rel_run_hooks D.toDispatchRel it ep false false none false true
        (relThunks_none R) y

theorem rel_epochSplitPhase {it : It} {R : St → St → Prop} (D : DriverRel it R)
    (ep : Nat) (sps : List Split) (s : St) :
    R s (epochSplitPhase it ep sps s).1 := by
  induction sps generalizing s with
  | nil => exact D.refl s
  | cons sp rest ih =>
    unfold epochSplitPhase
    exact rel_bindE D.toDispatchRel _ _ (rel_epochSplitPhaseOne D ep sp s) ih

theorem rel_oneEpoch {it : It} {R : St → St → Prop} (D : DriverRel it R)
    (ep : Nat) (s : St) : R s (oneEpoch it ep s).1 := by
  unfold oneEpoch
  dsimp only
  refine rel_bindE D.toDispatchRel _ _ ?_ ?_
  · refine D.trans ?_
      (rel_run_hooks D.toDispatchRel it ep false false none true false
        (relThunks_none R) _)
    exact D.pure_ok rfl rfl
  · intro x
    refine rel_bindE D.toDispatchRel _ _ (rel_innerLoop D _ x) ?_
    intro y
    refine rel_bindE D.toDispatchRel _ _ ?_ ?_
    · exact rel_run_hooks D.toDispatchRel it ep false false none false false
        (relThunks_none R) y
    · intro z
      exact rel_epochSplitPhase D ep (splitsOf z) z

theorem rel_epochLoop {it : It} {R : St → St → Prop} (D : DriverRel it R)
    (l : List Nat) (s : St) : R s (epochLoop it l s).1 := by
  induction l generalizing s with
  | nil => exact D.refl s
  | cons i rest ih =>
    unfold epochLoop
    exact rel_bindE D.toDispatchRel _ _ (rel_oneEpoch D i s) ih

theorem rel_iterate_inner {it : It} {R : St → St → Prop} (D : DriverRel it R)
    (s : St) : R s (_iterate it s).1 := by
  unfold _iterate
  dsimp only
  refine D.trans ?_ (rel_epochLoop D _ _)
  split
  · refine D.trans (D.emit_warn s) ?_
    exact D.pure_ok rfl rfl
  · exact D.refl s

theorem rel_handle_exception {it : It} {R : St → St → Prop} (D : DriverRel it R)
    (e : Err) (s : St) : R s (_handle_exception it e s) := by
  unfold _handle_exception
  generalize it.hooks = l
  induction l generalizing s with
  | nil => exact D.refl s
  | cons p rest ih =>
    exact D.trans (D.emit_exc s p.1 e) (ih _)

theorem rel_iterate {it : It} {R : St → St → Prop} (D : DriverRel it R)
    (s : St) : R s (iterate it s).1 := by
  unfold iterate
  have h1 := rel_iterate_inner D s
  rcases hr : _iterate it s with ⟨s1, e1⟩
  rw [hr] at h1
  cases e1 with
  | some e => exact D.trans h1 (rel_handle_exception D e s1)
  | none => exact h1

/-
Instantiation 1: the global-step discipline `GsFacts`.
-/

theorem gsFacts_refl (it : It) (a : St) : GsFacts it a a :=
  ⟨le_refl _, fun _ => rfl, fun _ => rfl⟩

theorem gsFacts_trans (it : It) {a b c : St} (h1 : GsFacts it a b)
    (h2 : GsFacts it b c) : GsFacts it a c := by
  obtain ⟨l1, e1, t1⟩ := h1
  obtain ⟨l2, e2, t2⟩ := h2
  refine ⟨le_trans l1 l2, fun h => ?_, fun h => by rw [t2 h, t1 h]⟩
  have := e1 h
  have := e2 h
  omega

theorem gsFacts_of_eq (it : It) {a b : St}
    (h1 : b.global_step = a.global_step)
    (h2 : b.trace.count Ev.incr = a.trace.count Ev.incr) : GsFacts it a b :=
  ⟨le_of_eq h1.symm, fun _ => by rw [h1, h2], fun _ => h1⟩

theorem gsFacts_emit (it : It) (s : St) (e : Ev) (h : e ≠ Ev.incr) :
    GsFacts it s (s.emit e) :=
  gsFacts_of_eq it rfl (by rw [emit_trace]; exact count_snoc_ne _ _ _ h)

theorem gsFacts_increment (it : It) (s : St) :
    GsFacts it s (increment_global_step it s) := by
  unfold increment_global_step
  dsimp only
  have hc : (s.emit Ev.incr).trace.count Ev.incr = s.trace.count Ev.incr + 1 := by
    rw [emit_trace]
    exact count_snoc_eq _ _
  have hg : (s.emit Ev.incr).global_step = s.global_step := rfl
  split
  · next htm =>
      refine ⟨le_refl _, fun h => ?_, fun _ => rfl⟩
      rw [htm] at h
      cases h
  · next htm =>
      refine ⟨Nat.le_succ _, fun _ => ?_, fun h => ?_⟩
      · dsimp only
        omega
      · exact absurd h htm

theorem driverRel_gsFacts (it : It) : DriverRel it (GsFacts it) :=
  { refl := gsFacts_refl it
    trans := fun h1 h2 => gsFacts_trans it h1 h2
    pure_ok := fun h1 h2 => gsFacts_of_eq it h1 (by rw [h2])
    emit_ok := fun s e he => gsFacts_emit it s e (dispatchEv_ne_incr he)
    emit_reset := fun s sp => gsFacts_emit it s _ (by simp)
    emit_warn := fun s => gsFacts_emit it s _ (by simp)
    emit_exc := fun s h e => gsFacts_emit it s _ (by simp)
    incr_ok := gsFacts_increment it }

theorem gsFacts_iterate (it : It) (s : St) : GsFacts it s (iterate it s).1 :=
  rel_iterate (driverRel_gsFacts it) s

/-
Instantiation 2: the trace is append-only.
-/

theorem prefix_emit (s : St) (e : Ev) : s.trace <+: (s.emit e).trace := by
  rw [emit_trace]
  exact List.prefix_append _ _

theorem driverRel_traceMono (it : It) :
    DriverRel it (fun a b => a.trace <+: b.trace) :=
  { refl := fun s => List.prefix_refl _
    trans := fun h1 h2 => h1.trans h2
    pure_ok := fun _ h2 => by rw [h2]
    emit_ok := fun s e _ => prefix_emit s e
    emit_reset := fun s sp => prefix_emit s _
    emit_warn := fun s => prefix_emit s _
    emit_exc := fun s h e => prefix_emit s _
    incr_ok := fun s => by
      unfold increment_global_step
      dsimp only
      split
      · exact prefix_emit s _
      · show s.trace <+: (s.emit Ev.incr).trace
        exact prefix_emit s _ }

/-
Instantiation 3: dispatch does not add occurrences of non-dispatch events.
-/

theorem dispatchRel_cnt (ev : Ev) (hv : NotDispatchEv ev) :
    DispatchRel (fun a b => b.trace.count ev = a.trace.count ev) :=
  { refl := fun s => rfl
    trans := fun h1 h2 => h2.trans h1
    pure_ok := fun _ h2 => by rw [h2]
    emit_ok := fun s e he => by
      rw [emit_trace]
      exact count_snoc_ne _ _ _ (dispatchEv_ne he hv) }

theorem notDispatchEv_incr : NotDispatchEv Ev.incr := by
  constructor
  · intro h i
    refine ⟨by simp, by simp, by simp, by simp⟩
  · intro sp
    exact ⟨by simp, by simp⟩

theorem notDispatchEv_reset (sp : Split) : NotDispatchEv (Ev.resetEv sp) := by
  constructor
  · intro h i
    refine ⟨by simp, by simp, by simp, by simp⟩
  · intro sp'
    exact ⟨by simp, by simp⟩

theorem notDispatchEv_warn : NotDispatchEv Ev.warn := by
  constructor
  · intro h i
    refine ⟨by simp, by simp, by simp, by simp⟩
  · intro sp'
    exact ⟨by simp, by simp⟩

/-
The exception-notification path.
-/

theorem foldl_emit_at_exception (hooks : List (Nat × Hook)) (e : Err) (s : St) :
    hooks.foldl (fun s p => s.emit (.at_exception p.1 e)) s
      = { s with trace := s.trace ++ hooks.map (fun p => Ev.at_exception p.1 e) } := by
  induction hooks generalizing s with
  | nil => simp
  | cons p rest ih =>
    simp only [List.foldl_cons, List.map_cons]
    rw [ih]
    simp [St.emit, List.append_assoc]

theorem handle_exception_eq (it : It) (e : Err) (s : St) :
    _handle_exception it e s
      = { s with trace := s.trace ++ it.hooks.map (fun p => Ev.at_exception p.1 e) } :=
  foldl_emit_at_exception it.hooks e s

/-
The no-error family: under `NoFailHooks` the driver never raises.
-/

theorem noErr_bindE {r : St × Option Err} {g : St → St × Option Err}
    (h1 : r.2 = none) (h2 : NoErr g) : (bindE r g).2 = none := by
  obtain ⟨s1, e1⟩ := r
  dsimp only at h1
  subst h1
  exact h2 s1

theorem noErrThunks_none : NoErrThunks none := by
  intro pr h
  simp [Option.getD] at h

theorem noErr_invokeThunks (results : List (Split × ThunkFn))
    (h : ∀ pr, pr ∈ results → NoErr pr.2) (sps : List Split) :
    NoErr (invokeThunks results sps) := by
  induction sps with
  | nil =>
    intro s
    rfl
  | cons sp rest ih =>
    intro s
    unfold invokeThunks
    cases hl : lookupThunk results sp with
    | none => exact ih s
    | some t =>
      obtain ⟨sp', hmem⟩ := lookupThunk_mem results sp t hl
      exact noErr_bindE (h (sp', t) hmem s) ih

theorem noErr_dispatchHooks (f : Nat × Hook → St → St × Option Err)
    (hooks : List (Nat × Hook)) (hf : ∀ p, p ∈ hooks → NoErr (f p)) :
    NoErr (dispatchHooks f hooks) := by
  induction hooks with
  | nil =>
    intro s
    rfl
  | cons p rest ih =>
    intro s
    unfold dispatchHooks
    refine noErr_bindE (hf p (List.mem_cons_self _ _) s) ?_
    exact ih (fun q hq => hf q (List.mem_cons_of_mem _ hq))

theorem noErr_run_hooks (it : It) (h : NoFailHooks it) (index : Nat)
    (hasFetches hasFeeds : Bool) (results : Option (List (Split × ThunkFn)))
    (before epoch_hooks : Bool) (ht : NoErrThunks results) :
    NoErr (run_hooks it index hasFetches hasFeeds results before epoch_hooks) := by
  intro s
  unfold run_hooks
  dsimp only
  have hmem : ∀ p, p ∈ (if epoch_hooks then it.epoch_hooks else it.hooks) →
      p ∈ it.hooks ∨ p ∈ it.epoch_hooks := by
    split
    · exact fun p hp => Or.inr hp
    · exact fun p hp => Or.inl hp
  split
  · split
    · split
      · refine noErr_dispatchHooks _ _ ?_ s
        intro p hp x
        exact (h p (hmem p hp)).1 index
      · refine noErr_dispatchHooks _ _ ?_ s
        intro p hp x
        exact (h p (hmem p hp)).2.2.1 index
    · split
      · refine noErr_dispatchHooks _ _ ?_ s
        intro p hp x
        unfold hookAfterStep
        refine noErr_bindE ?_ (fun y => (h p (hmem p hp)).2.1 index)
        refine noErr_invokeThunks _ ?_ _ _
        intro pr hpr
        exact ht pr hpr
      · refine noErr_dispatchHooks _ _ ?_ s
        intro p hp x
        exact (h p (hmem p hp)).2.2.2 index
  · rfl

theorem noErr_split_op_core (it : It) (h : NoFailHooks it) (eh sa : Bool)
    (index : Nat) (sp : Split) : NoErr (split_op_core it eh sa index sp) := by
  intro s
  unfold split_op_core
  dsimp only
  exact noErr_bindE
    (noErr_run_hooks it h index true true none true eh noErrThunks_none _)
    (fun x => rfl)

theorem noErrThunks_lazy (it : It) (h : NoFailHooks it) (i : Nat)
    (sps : List Split) :
    NoErrThunks (some (sps.map (fun sp => (sp, lazy_split_op it i sp)))) := by
  intro pr hmem
  simp only [Option.getD] at hmem
  obtain ⟨sp, _, rfl⟩ := List.mem_map.mp hmem
  exact noErr_split_op_core it h false false i sp

theorem noErrThunks_lazyEpoch (it : It) (h : NoFailHooks it) (i : Nat)
    (sp : Split) : NoErrThunks (some [(sp, lazy_split_op_epoch it i sp)]) := by
  intro pr hmem
  simp only [Option.getD, List.mem_singleton] at hmem
  subst hmem
  exact noErr_split_op_core it h true true i sp

theorem noErr_innerTick (it : It) (h : NoFailHooks it) (i : Nat) (s : St) :
    (innerTick it i s).2.1 = none := by
  unfold innerTick
  dsimp only
  have hrh := noErr_run_hooks it h i false false
      (some ((splitsOf { s with batch_step := i }).map
        (fun sp => (sp, lazy_split_op it i sp)))) false false
      (noErrThunks_lazy it h i _) { s with batch_step := i }
  rcases hr : run_hooks it i false false
      (some ((splitsOf { s with batch_step := i }).map
        (fun sp => (sp, lazy_split_op it i sp)))) false false
      { s with batch_step := i } with ⟨s1, e1⟩
  rw [hr] at hrh
  dsimp only at hrh
  subst hrh
  dsimp only
  split
  · rfl
  · rfl

theorem noErr_innerLoop (it : It) (h : NoFailHooks it) (l : List Nat) :
    ∀ s, (innerLoop it l s).2 = none := by
  induction l with
  | nil =>
    intro s
    rfl
  | cons i rest ih =>
    intro s
    unfold innerLoop
    have h1 := noErr_innerTick it h i s
    rcases ht : innerTick it i s with ⟨s1, e1, b1⟩
    rw [ht] at h1
    dsimp only at h1
    subst h1
    cases b1 with
    | true => rfl
    | false => exact ih s1

theorem noErr_epochTick (it : It) (h : NoFailHooks it) (sp : Split) (i : Nat)
    (s : St) : (epochTick it sp i s).2.1 = none := by
  unfold epochTick
  dsimp only
  have hrh := noErr_run_hooks it h i false false
      (some [(sp, lazy_split_op_epoch it i sp)]) false true
      (noErrThunks_lazyEpoch it h i sp) { s with batch_step := i, active := false }
  rcases hr : run_hooks it i false false
      (some [(sp, lazy_split_op_epoch it i sp)]) false true
      { s with batch_step := i, active := false } with ⟨s1, e1⟩
  rw [hr] at hrh
  dsimp only at hrh
  subst hrh
  dsimp only
  split
  · rfl
  · rfl

theorem noErr_epochSplitLoop (it : It) (h : NoFailHooks it) (sp : Split)
    (l : List Nat) : ∀ s, (epochSplitLoop it sp l s).2 = none := by
  induction l with
  | nil =>
    intro s
    rfl
  | cons i rest ih =>
    intro s
    unfold epochSplitLoop
    have h1 := noErr_epochTick it h sp i s
    rcases ht : epochTick it sp i s with ⟨s1, e1, b1⟩
    rw [ht] at h1
    dsimp only at h1
    subst h1
    cases b1 with
    | true => rfl
    | false => exact ih s1

theorem noErr_epochSplitPhaseOne (it : It) (h : NoFailHooks it) (ep : Nat)
    (sp : Split) : NoErr (epochSplitPhaseOne it ep sp) := by
  intro s
  unfold epochSplitPhaseOne
  refine noErr_bindE
    (noErr_run_hooks it h ep false false none true true noErrThunks_none s) ?_
  intro x
  refine noErr_bindE (noErr_epochSplitLoop it h sp _ x) ?_
  intro y
  exact noErr_run_hooks it h ep false false none false true noErrThunks_none y

theorem noErr_epochSplitPhase (it : It) (h : NoFailHooks it) (ep : Nat)
    (sps : List Split) : NoErr (epochSplitPhase it ep sps) := by
  induction sps with
  | nil =>
    intro s
    rfl
  | cons sp rest ih =>
    intro s
    unfold epochSplitPhase
    exact noErr_bindE (noErr_epochSplitPhaseOne it h ep sp s) ih

theorem noErr_oneEpoch (it : It) (h : NoFailHooks it) (ep : Nat) :
    NoErr (oneEpoch it ep) := by
  intro s
  unfold oneEpoch
  dsimp only
  refine noErr_bindE
    (noErr_run_hooks it h ep false false none true false noErrThunks_none _) ?_
  intro x
  refine noErr_bindE (noErr_innerLoop it h _ x) ?_
  intro y
  refine noErr_bindE
    (noErr_run_hooks it h ep false false none false false noErrThunks_none y) ?_
  intro z
  exact noErr_epochSplitPhase it h ep (splitsOf z) z

theorem noErr_epochLoop (it : It) (h : NoFailHooks it) (l : List Nat) :
    ∀ s, (epochLoop it l s).2 = none := by
  induction l with
  | nil =>
    intro s
    rfl
  | cons i rest ih =>
    intro s
    unfold epochLoop
    exact noErr_bindE (noErr_oneEpoch it h i s) ih

theorem noErr_iterate_inner (it : It) (h : NoFailHooks it) (s : St) :
    (_iterate it s).2 = none := by
  unfold _iterate
  dsimp only
  exact noErr_epochLoop it h _ _

theorem noErr_iterate (it : It) (h : NoFailHooks it) (s : St) :
    (iterate it s).2 = none := by
  unfold iterate
  have h1 := noErr_iterate_inner it h s
  rcases hr : _iterate it s with ⟨s1, e1⟩
  rw [hr] at h1
  dsimp only at h1
  subst h1
  rfl

theorem iterate_eq_of_noFail (it : It) (h : NoFailHooks it) (s : St) :
    iterate it s = _iterate it s := by
  unfold iterate
  have h1 := noErr_iterate_inner it h s
  rcases hr : _iterate it s with ⟨s1, e1⟩
  rw [hr] at h1
  dsimp only at h1
  subst h1
  rfl

/-
Event-count lemmas: how many `incr` and `resetEv` events each phase adds.
-/

theorem invokeThunks_nilRes (sps : List Split) (s : St) :
    invokeThunks [] sps s = (s, none) := by
  induction sps with
  | nil => rfl
  | cons sp rest ih =>
    unfold invokeThunks
    exact ih

theorem dispatchHooks_emits (f : Nat × Hook → St → St × Option Err)
    (hf : ∀ p s, ∃ e, (f p s).1 = s.emit e ∧ HookEv e)
    (hooks : List (Nat × Hook)) (s : St) :
    ∃ t, (dispatchHooks f hooks s).1 = { s with trace := s.trace ++ t } ∧
      ∀ e, e ∈ t → HookEv e := by
  induction hooks generalizing s with
  | nil =>
    refine ⟨[], ?_, ?_⟩
    · simp [dispatchHooks]
    · intro e he
      cases he
  | cons p rest ih =>
    unfold dispatchHooks
    obtain ⟨e, he, hhe⟩ := hf p s
    rcases hfp : f p s with ⟨s1, e1⟩
    rw [hfp] at he
    dsimp only at he
    subst he
    cases e1 with
    | none =>
      obtain ⟨t, ht, hmt⟩ := ih (s.emit e)
      refine ⟨e :: t, ?_, ?_⟩
      · show (dispatchHooks f rest (s.emit e)).1 = _
        rw [ht]
        simp [St.emit, List.append_assoc]
      · intro e2 he2
        rcases List.mem_cons.mp he2 with rfl | hmem
        · exact hhe
        · exact hmt e2 hmem
    | some e2 =>
      refine ⟨[e], rfl, ?_⟩
      intro e3 he3
      rw [List.mem_singleton] at he3
      subst he3
      exact hhe

theorem run_hooks_none_emits (it : It) (index : Nat)
    (hasFetches hasFeeds : Bool) (before epoch_hooks : Bool) (s : St) :
    ∃ t, (run_hooks it index hasFetches hasFeeds none before epoch_hooks s).1
      = { s with trace := s.trace ++ t } ∧ ∀ e, e ∈ t → HookEv e := by
  unfold run_hooks
  dsimp only
  split
  · split
    · split
      · exact dispatchHooks_emits _
          (fun p x => ⟨_, rfl, p.1, index, Or.inl rfl⟩) _ s
      · exact dispatchHooks_emits _
          (fun p x => ⟨_, rfl, p.1, index, Or.inr (Or.inr (Or.inl rfl))⟩) _ s
    · split
      · refine dispatchHooks_emits _ (fun p x => ?_) _ s
        refine ⟨Ev.after_step p.1 index, ?_, p.1, index, Or.inr (Or.inl rfl)⟩
        unfold hookAfterStep
        rw [Option.getD_none, invokeThunks_nilRes]
        rfl
      · exact dispatchHooks_emits _
          (fun p x => ⟨_, rfl, p.1, index, Or.inr (Or.inr (Or.inr rfl))⟩) _ s
  · refine ⟨[], by simp, ?_⟩
    intro e he
    cases he

theorem cnt_run_hooks_none_nonhook (ev : Ev)
    (hv : ∀ h i, ev ≠ Ev.before_step h i ∧ ev ≠ Ev.after_step h i ∧
                 ev ≠ Ev.before_epoch h i ∧ ev ≠ Ev.after_epoch h i)
    (it : It) (index : Nat) (hasFetches hasFeeds before epoch_hooks : Bool)
    (s : St) :
    (run_hooks it index hasFetches hasFeeds none before epoch_hooks s).1.trace.count ev
      = s.trace.count ev := by
  obtain ⟨t, ht, hm⟩ := run_hooks_none_emits it index hasFetches hasFeeds
    before epoch_hooks s
  rw [ht]
  dsimp only
  rw [List.count_append]
  have hz : t.count ev = 0 := by
    rw [List.count_eq_zero]
    intro hmem
    obtain ⟨h, i, hc⟩ := hm ev hmem
    rcases hc with rfl | rfl | rfl | rfl
    · exact (hv h i).1 rfl
    · exact (hv h i).2.1 rfl
    · exact (hv h i).2.2.1 rfl
    · exact (hv h i).2.2.2 rfl
  omega

theorem cnt_increment_ne (it : It) (s : St) (ev : Ev) (h : ev ≠ Ev.incr) :
    (increment_global_step it s).trace.count ev = s.trace.count ev := by
  unfold increment_global_step
  dsimp only
  split
  · rw [emit_trace]
    exact count_snoc_ne _ _ _ (Ne.symm h)
  · show (s.emit Ev.incr).trace.count ev = s.trace.count ev
    rw [emit_trace]
    exact count_snoc_ne _ _ _ (Ne.symm h)

theorem cnt_increment_incr (it : It) (s : St) :
    (increment_global_step it s).trace.count Ev.incr
      = s.trace.count Ev.incr + 1 := by
  unfold increment_global_step
  dsimp only
  split
  · rw [emit_trace]
    exact count_snoc_eq _ _
  · show (s.emit Ev.incr).trace.count Ev.incr = s.trace.count Ev.incr + 1
    rw [emit_trace]
    exact count_snoc_eq _ _

theorem cnt_innerTick (it : It) (i : Nat) (s : St) (ev : Ev)
    (hv : NotDispatchEv ev) (hincr : ev ≠ Ev.incr)
    (hreset : ev ≠ Ev.resetEv Split.train) :
    (innerTick it i s).1.trace.count ev = s.trace.count ev := by
  unfold innerTick
  dsimp only
  have hrh := rel_run_hooks (dispatchRel_cnt ev hv) it i false false
      (some ((splitsOf { s with batch_step := i }).map
        (fun sp => (sp, lazy_split_op it i sp)))) false false
      (relThunks_lazy (dispatchRel_cnt ev hv) it i _) { s with batch_step := i }
  rcases hr : run_hooks it i false false
      (some ((splitsOf { s with batch_step := i }).map
        (fun sp => (sp, lazy_split_op it i sp)))) false false
      { s with batch_step := i } with ⟨s1, e1⟩
  rw [hr] at hrh
  dsimp only at hrh
  cases e1 with
  | some e => exact hrh
  | none =>
    have hi := cnt_increment_ne it s1 ev hincr
    dsimp only
    split
    · rw [emit_trace, setStream_trace]
      rw [count_snoc_ne _ _ _ (Ne.symm hreset)]
      rw [hi, hrh]
    · rw [hi, hrh]

theorem cnt_innerTick_incr (it : It) (i : Nat) (s : St) :
    (innerTick it i s).1.trace.count Ev.incr
      ≤ s.trace.count Ev.incr + 1 := by
  unfold innerTick
  dsimp only
  have hrh := rel_run_hooks (dispatchRel_cnt Ev.incr notDispatchEv_incr) it i
      false false
      (some ((splitsOf { s with batch_step := i }).map
        (fun sp => (sp, lazy_split_op it i sp)))) false false
      (relThunks_lazy (dispatchRel_cnt Ev.incr notDispatchEv_incr) it i _)
      { s with batch_step := i }
  rcases hr : run_hooks it i false false
      (some ((splitsOf { s with batch_step := i }).map
        (fun sp => (sp, lazy_split_op it i sp)))) false false
      { s with batch_step := i } with ⟨s1, e1⟩
  rw [hr] at hrh
  dsimp only at hrh
  cases e1 with
  | some e =>
    dsimp only
    omega
  | none =>
    have hi := cnt_increment_incr it s1
    dsimp only
    split
    · rw [emit_trace, setStream_trace]
      rw [count_snoc_ne _ _ _ (by simp)]
      omega
    · dsimp only
      omega

theorem cnt_innerTick_reset (it : It) (i : Nat) (s : St) :
    ((innerTick it i s).1.trace.count (Ev.resetEv Split.train)
       ≤ s.trace.count (Ev.resetEv Split.train) + 1) ∧
    ((innerTick it i s).2.2 = false →
      (innerTick it i s).1.trace.count (Ev.resetEv Split.train)
        = s.trace.count (Ev.resetEv Split.train)) := by
  unfold innerTick
  dsimp only
  have hrh := rel_run_hooks
      (dispatchRel_cnt (Ev.resetEv Split.train) (notDispatchEv_reset Split.train))
      it i false false
      (some ((splitsOf { s with batch_step := i }).map
        (fun sp => (sp, lazy_split_op it i sp)))) false false
      (relThunks_lazy
        (dispatchRel_cnt (Ev.resetEv Split.train) (notDispatchEv_reset Split.train))
        it i _)
      { s with batch_step := i }
  rcases hr : run_hooks it i false false
      (some ((splitsOf { s with batch_step := i }).map
        (fun sp => (sp, lazy_split_op it i sp)))) false false
      { s with batch_step := i } with ⟨s1, e1⟩
  rw [hr] at hrh
  dsimp only at hrh
  cases e1 with
  | some e =>
    dsimp only
    exact ⟨by omega, fun _ => hrh⟩
  | none =>
    have hi := cnt_increment_ne it s1 (Ev.resetEv Split.train) (by simp)
    dsimp only
    split
    · constructor
      · rw [emit_trace, setStream_trace, count_snoc_eq, hi, hrh]
      · intro hfalse
        cases hfalse
    · dsimp only
      exact ⟨by omega, fun _ => by rw [hi, hrh]⟩

theorem cnt_innerLoop_reset (it : It) (l : List Nat) (s : St) :
    (innerLoop it l s).1.trace.count (Ev.resetEv Split.train)
      ≤ s.trace.count (Ev.resetEv Split.train) + 1 := by
  induction l generalizing s with
  | nil =>
    show s.trace.count (Ev.resetEv Split.train)
      ≤ s.trace.count (Ev.resetEv Split.train) + 1
    omega
  | cons i rest ih =>
    unfold innerLoop
    have h1 := cnt_innerTick_reset it i s
    rcases ht : innerTick it i s with ⟨s1, e1, b1⟩
    rw [ht] at h1
    dsimp only at h1
    cases e1 with
    | some e => exact h1.1
    | none =>
      cases b1 with
      | true => exact h1.1
      | false =>
        have h2 := h1.2 rfl
        have h3 := ih s1
        dsimp only
        omega

theorem cnt_run_hooks_none (ev : Ev) (hv : NotDispatchEv ev) (it : It)
    (index : Nat) (hasFetches hasFeeds before epoch_hooks : Bool) (s : St) :
    (run_hooks it index hasFetches hasFeeds none before epoch_hooks s).1.trace.count ev
      = s.trace.count ev :=
  rel_run_hooks (dispatchRel_cnt ev hv) it index hasFetches hasFeeds none
    before epoch_hooks (relThunks_none _) s

theorem cnt_epochTick (it : It) (sp : Split) (i : Nat) (s : St) (ev : Ev)
    (hv : NotDispatchEv ev) (hreset : ev ≠ Ev.resetEv sp) :
    (epochTick it sp i s).1.trace.count ev = s.trace.count ev := by
  unfold epochTick
  dsimp only
  have hrh := rel_run_hooks (dispatchRel_cnt ev hv) it i false false
      (some [(sp, lazy_split_op_epoch it i sp)]) false true
      (relThunks_lazyEpoch (dispatchRel_cnt ev hv) it i sp)
      { s with batch_step := i, active := false }
  rcases hr : run_hooks it i false false
      (some [(sp, lazy_split_op_epoch it i sp)]) false true
      { s with batch_step := i, active := false } with ⟨s1, e1⟩
  rw [hr] at hrh
  dsimp only at hrh
  cases e1 with
  | some e => exact hrh
  | none =>
    dsimp only
    split
    · rw [emit_trace, setStream_trace]
      rw [count_snoc_ne _ _ _ (Ne.symm hreset)]
      exact hrh
    · exact hrh

theorem cnt_epochTick_reset (it : It) (sp : Split) (i : Nat) (s : St) :
    ((epochTick it sp i s).1.trace.count (Ev.resetEv sp)
       ≤ s.trace.count (Ev.resetEv sp) + 1) ∧
    ((epochTick it sp i s).2.2 = false →
      (epochTick it sp i s).1.trace.count (Ev.resetEv sp)
        = s.trace.count (Ev.resetEv sp)) := by
  unfold epochTick
  dsimp only
  have hrh := rel_run_hooks
      (dispatchRel_cnt (Ev.resetEv sp) (notDispatchEv_reset sp)) it i false false
      (some [(sp, lazy_split_op_epoch it i sp)]) false true
      (relThunks_lazyEpoch (dispatchRel_cnt (Ev.resetEv sp) (notDispatchEv_reset sp))
        it i sp)
      { s with batch_step := i, active := false }
  rcases hr : run_hooks it i false false
      (some [(sp, lazy_split_op_epoch it i sp)]) false true
      { s with batch_step := i, active := false } with ⟨s1, e1⟩
  rw [hr] at hrh
  dsimp only at hrh
  cases e1 with
  | some e =>
    dsimp only
    exact ⟨by omega, fun _ => hrh⟩
  | none =>
    dsimp only
    split
    · constructor
      · rw [emit_trace, setStream_trace, count_snoc_eq, hrh]
      · intro hfalse
        cases hfalse
    · dsimp only
      exact ⟨by omega, fun _ => hrh⟩

theorem cnt_epochSplitLoop (it : It) (sp : Split) (l : List Nat) (s : St)
    (ev : Ev) (hv : NotDispatchEv ev) (hreset : ev ≠ Ev.resetEv sp) :
    (epochSplitLoop it sp l s).1.trace.count ev = s.trace.count ev := by
  induction l generalizing s with
  | nil => rfl
  | cons i rest ih =>
    unfold epochSplitLoop
    have h1 := cnt_epochTick it sp i s ev hv hreset
    rcases ht : epochTick it sp i s with ⟨s1, e1, b1⟩
    rw [ht] at h1
    dsimp only at h1
    cases e1 with
    | some e => exact h1
    | none =>
      cases b1 with
      | true => exact h1
      | false =>
        dsimp only
        rw [ih s1, h1]

theorem cnt_epochSplitLoop_reset (it : It) (sp : Split) (l : List Nat) (s : St) :
    (epochSplitLoop it sp l s).1.trace.count (Ev.resetEv sp)
      ≤ s.trace.count (Ev.resetEv sp) + 1 := by
  induction l generalizing s with
  | nil =>
    show s.trace.count (Ev.resetEv sp) ≤ s.trace.count (Ev.resetEv sp) + 1
    omega
  | cons i rest ih =>
    unfold epochSplitLoop
    have h1 := cnt_epochTick_reset it sp i s
    rcases ht : epochTick it sp i s with ⟨s1, e1, b1⟩
    rw [ht] at h1
    dsimp only at h1
    cases e1 with
    | some e => exact h1.1
    | none =>
      cases b1 with
      | true => exact h1.1
      | false =>
        have h2 := h1.2 rfl
        have h3 := ih s1
        dsimp only
        omega

theorem cnt_epochSplitPhaseOne (it : It) (ep : Nat) (sp : Split) (s : St)
    (ev : Ev) (hv : NotDispatchEv ev) (hreset : ev ≠ Ev.resetEv sp) :
    (epochSplitPhaseOne it ep sp s).1.trace.count ev = s.trace.count ev := by
  unfold epochSplitPhaseOne
  refine rel_bindE (dispatchRel_cnt ev hv) _ _ ?_ ?_
  · exact cnt_run_hooks_none ev hv it ep false false true true s
  · intro x
    refine rel_bindE (dispatchRel_cnt ev hv) _ _ ?_ ?_
    · exact cnt_epochSplitLoop it sp _ x ev hv hreset
    · intro y
      exact cnt_run_hooks_none ev hv it ep false false false true y

theorem cnt_epochSplitPhaseOne_reset (it : It) (ep : Nat) (sp : Split) (s : St) :
    (epochSplitPhaseOne it ep sp s).1.trace.count (Ev.resetEv sp)
      ≤ s.trace.count (Ev.resetEv sp) + 1 := by
  unfold epochSplitPhaseOne
  rcases h0 : run_hooks it ep false false none true true s with ⟨s1, e1⟩
  have hc0 : s1.trace.count (Ev.resetEv sp) = s.trace.count (Ev.resetEv sp) := by
    have := cnt_run_hooks_none (Ev.resetEv sp) (notDispatchEv_reset sp) it ep
      false false true true s
    rw [h0] at this
    exact this
  cases e1 with
  | some e =>
    dsimp only [bindE]
    omega
  | none =>
    dsimp only [bindE]
    rcases h1 : epochSplitLoop it sp (List.range (s1.getStream sp).length) s1
        with ⟨s2, e2⟩
    have hc1 : s2.trace.count (Ev.resetEv sp) ≤ s1.trace.count (Ev.resetEv sp) + 1 := by
      have := cnt_epochSplitLoop_reset it sp (List.range (s1.getStream sp).length) s1
      rw [h1] at this
      exact this
    cases e2 with
    | some e => dsimp only; omega
    | none =>
      dsimp only
      have hc2 := cnt_run_hooks_none (Ev.resetEv sp) (notDispatchEv_reset sp) it ep
        false false false true s2
      omega

theorem cnt_epochSplitPhase (it : It) (ep : Nat) (sps : List Split) (s : St)
    (ev : Ev) (hv : NotDispatchEv ev) (hreset : ∀ sp, ev ≠ Ev.resetEv sp) :
    (epochSplitPhase it ep sps s).1.trace.count ev = s.trace.count ev := by
  induction sps generalizing s with
  | nil => rfl
  | cons sp rest ih =>
    unfold epochSplitPhase
    exact rel_bindE (dispatchRel_cnt ev hv) _ _
      (cnt_epochSplitPhaseOne it ep sp s ev hv (hreset sp)) ih

theorem cnt_epochSplitPhase_reset_train (it : It) (ep : Nat) (sps : List Split)
    (s : St) :
    (epochSplitPhase it ep sps s).1.trace.count (Ev.resetEv Split.train)
      ≤ s.trace.count (Ev.resetEv Split.train) + sps.count Split.train := by
  induction sps generalizing s with
  | nil =>
    show s.trace.count (Ev.resetEv Split.train)
      ≤ s.trace.count (Ev.resetEv Split.train) + [].count Split.train
    omega
  | cons sp rest ih =>
    unfold epochSplitPhase
    rcases h0 : epochSplitPhaseOne it ep sp s with ⟨s1, e1⟩
    by_cases hsp : sp = Split.train
    · subst hsp
      have hc0 : s1.trace.count (Ev.resetEv Split.train)
          ≤ s.trace.count (Ev.resetEv Split.train) + 1 := by
        have := cnt_epochSplitPhaseOne_reset it ep Split.train s
        rw [h0] at this
        exact this
      have hcnt : (Split.train :: rest).count Split.train
          = rest.count Split.train + 1 := by
        simp [List.count_cons]
      rw [hcnt]
      cases e1 with
      | some e =>
        dsimp only [bindE]
        omega
      | none =>
        dsimp only [bindE]
        have h3 := ih s1
        omega
    · have hc0 : s1.trace.count (Ev.resetEv Split.train)
          = s.trace.count (Ev.resetEv Split.train) := by
        have := cnt_epochSplitPhaseOne it ep sp s (Ev.resetEv Split.train)
          (notDispatchEv_reset Split.train)
          (by intro hh; exact hsp (by injection hh with hh'; exact hh'.symm))
        rw [h0] at this
        exact this
      have hcnt : (sp :: rest).count Split.train = rest.count Split.train := by
        simp [List.count_cons, hsp]
      rw [hcnt]
      cases e1 with
      | some e =>
        dsimp only [bindE]
        omega
      | none =>
        dsimp only [bindE]
        have h3 := ih s1
        omega

theorem cnt_innerLoop_incr (it : It) (l : List Nat) (s : St) :
    (innerLoop it l s).1.trace.count Ev.incr
      ≤ s.trace.count Ev.incr + l.length := by
  induction l generalizing s with
  | nil =>
    show s.trace.count Ev.incr ≤ s.trace.count Ev.incr + 0
    omega
  | cons i rest ih =>
    unfold innerLoop
    have h1 := cnt_innerTick_incr it i s
    rcases ht : innerTick it i s with ⟨s1, e1, b1⟩
    rw [ht] at h1
    dsimp only at h1
    cases e1 with
    | some e =>
      show s1.trace.count Ev.incr ≤ s.trace.count Ev.incr + (i :: rest).length
      simp only [List.length_cons]
      omega
    | none =>
      cases b1 with
      | true =>
        show s1.trace.count Ev.incr ≤ s.trace.count Ev.incr + (i :: rest).length
        simp only [List.length_cons]
        omega
      | false =>
        have h3 := ih s1
        show (innerLoop it rest s1).1.trace.count Ev.incr
          ≤ s.trace.count Ev.incr + (i :: rest).length
        simp only [List.length_cons]
        omega

theorem splitsOf_count_train (s : St) : (splitsOf s).count Split.train = 1 := by
  unfold splitsOf
  split
  · decide
  · decide

theorem cnt_oneEpoch_incr (it : It) (ep : Nat) (s : St)
    (htm : it.config.test_mode = false) :
    (oneEpoch it ep s).1.trace.count Ev.incr
      ≤ s.trace.count Ev.incr + s.train.length := by
  unfold oneEpoch
  dsimp only
  rcases h0 : run_hooks it ep false false none true false
      { s with epoch_step := ep } with ⟨s1, e1⟩
  have hc0 : s1.trace.count Ev.incr = s.trace.count Ev.incr := by
    have := cnt_run_hooks_none Ev.incr notDispatchEv_incr it ep false false
      true false { s with epoch_step := ep }
    rw [h0] at this
    dsimp only at this
    exact this
  have htr : s1.train = s.train := by
    obtain ⟨t, ht, _⟩ := run_hooks_none_emits it ep false false true false
      { s with epoch_step := ep }
    rw [h0] at ht
    dsimp only at ht
    rw [ht]
  cases e1 with
  | some e =>
    dsimp only [bindE]
    omega
  | none =>
    dsimp only [bindE]
    rw [htm]
    simp only [Bool.false_eq_true, if_false]
    dsimp only [St.getStream]
    rw [htr]
    rcases h1 : innerLoop it (List.range s.train.length) s1 with ⟨s2, e2⟩
    have hc1 : s2.trace.count Ev.incr ≤ s1.trace.count Ev.incr + s.train.length := by
      have := cnt_innerLoop_incr it (List.range s.train.length) s1
      rw [h1, List.length_range] at this
      exact this
    cases e2 with
    | some e =>
      dsimp only [bindE]
      omega
    | none =>
      dsimp only [bindE]
      rcases h2 : run_hooks it ep false false none false false s2 with ⟨s3, e3⟩
      have hc2 : s3.trace.count Ev.incr = s2.trace.count Ev.incr := by
        have := cnt_run_hooks_none Ev.incr notDispatchEv_incr it ep false false
          false false s2
        rw [h2] at this
        exact this
      cases e3 with
      | some e =>
        dsimp only [bindE]
        omega
      | none =>
        dsimp only [bindE]
        have hc3 := cnt_epochSplitPhase it ep (splitsOf s3) s3 Ev.incr
          notDispatchEv_incr (by intro sp; simp)
        omega

theorem cnt_oneEpoch_reset (it : It) (ep : Nat) (s : St) :
    (oneEpoch it ep s).1.trace.count (Ev.resetEv Split.train)
      ≤ s.trace.count (Ev.resetEv Split.train) + 2 := by
  unfold oneEpoch
  dsimp only
  rcases h0 : run_hooks it ep false false none true false
      { s with epoch_step := ep } with ⟨s1, e1⟩
  have hc0 : s1.trace.count (Ev.resetEv Split.train)
      = s.trace.count (Ev.resetEv Split.train) := by
    have := cnt_run_hooks_none (Ev.resetEv Split.train)
      (notDispatchEv_reset Split.train) it ep false false true false
      { s with epoch_step := ep }
    rw [h0] at this
    dsimp only at this
    exact this
  cases e1 with
  | some e =>
    dsimp only [bindE]
    omega
  | none =>
    dsimp only [bindE]
    rcases h1 : innerLoop it
        (List.range (if it.config.test_mode = true then 0
          else (s1.getStream Split.train).length)) s1 with ⟨s2, e2⟩
    have hc1 : s2.trace.count (Ev.resetEv Split.train)
        ≤ s1.trace.count (Ev.resetEv Split.train) + 1 := by
      have := cnt_innerLoop_reset it
        (List.range (if it.config.test_mode = true then 0
          else (s1.getStream Split.train).length)) s1
      rw [h1] at this
      exact this
    cases e2 with
    | some e =>
      dsimp only [bindE]
      omega
    | none =>
      dsimp only [bindE]
      rcases h2 : run_hooks it ep false false none false false s2 with ⟨s3, e3⟩
      have hc2 : s3.trace.count (Ev.resetEv Split.train)
          = s2.trace.count (Ev.resetEv Split.train) := by
        have := cnt_run_hooks_none (Ev.resetEv Split.train)
          (notDispatchEv_reset Split.train) it ep false false false false s2
        rw [h2] at this
        exact this
      cases e3 with
      | some e =>
        dsimp only [bindE]
        omega
      | none =>
        dsimp only [bindE]
        have hc3 := cnt_epochSplitPhase_reset_train it ep (splitsOf s3) s3
        rw [splitsOf_count_train] at hc3
        omega

/-
Further helpers for the claim theorems.
-/

theorem epochLoop_one (it : It) (i : Nat) (s : St) :
    epochLoop it [i] s = oneEpoch it i s := by
  show bindE (oneEpoch it i s) (epochLoop it []) = oneEpoch it i s
  rcases h : oneEpoch it i s with ⟨s1, e1⟩
  cases e1 with
  | none => rfl
  | some e => rfl

theorem dispatchBeforeStep_noFail (idx : Nat) (hooks : List (Nat × Hook))
    (hf : ∀ p, p ∈ hooks → p.2.failBeforeStep idx = none) (s : St) :
    dispatchHooks (hookBeforeStep idx) hooks s
      = ({ s with trace := s.trace
            ++ hooks.map (fun p => Ev.before_step p.1 idx) }, none) := by
  induction hooks generalizing s with
  | nil => simp [dispatchHooks]
  | cons p rest ih =>
    unfold dispatchHooks
    have hstep : hookBeforeStep idx p s
        = (s.emit (Ev.before_step p.1 idx), none) := by
      unfold hookBeforeStep
      rw [hf p (List.mem_cons_self _ _)]
    rw [hstep]
    show dispatchHooks (hookBeforeStep idx) rest (s.emit _) = _
    rw [ih (fun q hq => hf q (List.mem_cons_of_mem _ hq))]
    simp [St.emit, List.append_assoc]

theorem dispatchAfterStep_noFail (idx : Nat)
    (results : List (Split × ThunkFn)) (hooks : List (Nat × Hook))
    (hf : ∀ p, p ∈ hooks →
      p.2.failAfterStep idx = none ∧ p.2.invokeOnAfterStep idx = []) (s : St) :
    dispatchHooks (hookAfterStep idx results) hooks s
      = ({ s with trace := s.trace
            ++ hooks.map (fun p => Ev.after_step p.1 idx) }, none) := by
  induction hooks generalizing s with
  | nil => simp [dispatchHooks]
  | cons p rest ih =>
    unfold dispatchHooks
    have hstep : hookAfterStep idx results p s
        = (s.emit (Ev.after_step p.1 idx), none) := by
      unfold hookAfterStep
      rw [(hf p (List.mem_cons_self _ _)).2]
      show bindE (s.emit (Ev.after_step p.1 idx), none) _ = _
      show (s.emit (Ev.after_step p.1 idx),
        p.2.failAfterStep idx) = _
      rw [(hf p (List.mem_cons_self _ _)).1]
    rw [hstep]
    show dispatchHooks (hookAfterStep idx results) rest (s.emit _) = _
    rw [ih (fun q hq => hf q (List.mem_cons_of_mem _ hq))]
    simp [St.emit, List.append_assoc]

theorem cnt_oneEpoch_incr_test (it : It) (ep : Nat) (s : St)
    (htm : it.config.test_mode = true) :
    (oneEpoch it ep s).1.trace.count Ev.incr = s.trace.count Ev.incr := by
  unfold oneEpoch
  dsimp only
  rcases h0 : run_hooks it ep false false none true false
      { s with epoch_step := ep } with ⟨s1, e1⟩
  have hc0 : s1.trace.count Ev.incr = s.trace.count Ev.incr := by
    have := cnt_run_hooks_none Ev.incr notDispatchEv_incr it ep false false
      true false { s with epoch_step := ep }
    rw [h0] at this
    dsimp only at this
    exact this
  cases e1 with
  | some e =>
    dsimp only [bindE]
    omega
  | none =>
    dsimp only [bindE]
    have hrange : List.range (if it.config.test_mode = true then 0
        else (s1.getStream Split.train).length) = [] := by
      rw [htm]
      simp
    rw [hrange]
    simp only [innerLoop]
    try dsimp only [bindE]
    rcases h2 : run_hooks it ep false false none false false s1 with ⟨s3, e3⟩
    have hc2 : s3.trace.count Ev.incr = s1.trace.count Ev.incr := by
      have := cnt_run_hooks_none Ev.incr notDispatchEv_incr it ep false false
        false false s1
      rw [h2] at this
      exact this
    cases e3 with
    | some e =>
      dsimp only [bindE]
      omega
    | none =>
      dsimp only [bindE]
      have hc3 := cnt_epochSplitPhase it ep (splitsOf s3) s3 Ev.incr
        notDispatchEv_incr (by intro sp; simp)
      omega

mutual

theorem walk_id (b : PVal) : walk (fun val => val) b = b := by
  cases b with
  | leaf a => rfl
  | node cs =>
    unfold walk
    rw [walkList_id cs]

theorem walkList_id (cs : List PVal) : walkList (fun val => val) cs = cs := by
  cases cs with
  | nil => rfl
  | cons v vs =>
    unfold walkList
    rw [walk_id v, walkList_id vs]

end

theorem noFail_itTest : NoFailHooks itTest := by
  intro p hp
  rcases hp with hp | hp
  · have he : itTest.hooks = [(0, noFailHook)] := rfl
    rw [he, List.mem_singleton] at hp
    subst hp
    exact ⟨fun i => rfl, fun i => rfl, fun i => rfl, fun i => rfl⟩
  · have he : itTest.epoch_hooks = ([] : List (Nat × Hook)) := rfl
    rw [he] at hp
    cases hp

/-
The claims.
-/

/-- C1 (amended): for every step-scoped `run_hooks` dispatch (fetches and
feeds present, or results present), the full step-payload callback fires for
every registered hook in registration order iff
`global_step % hook_freq == 0`: at a multiple of the frequency the
fetches/feeds dispatch delivers `before_step` to every hook and the
results-carrying dispatch delivers `after_step` to every hook, in
registration order; when `global_step % hook_freq ≠ 0` either dispatch is
skipped entirely: no callback of any kind fires (in particular no degenerate
index-only epoch-style callback) and the state is returned unchanged. -/
theorem C1_theorem (it : It) (index : Nat) (eh : Bool)
    (results : List (Split × ThunkFn)) (s : St)
    (hno : ∀ p, p ∈ (if eh then it.epoch_hooks else it.hooks) →
      p.2.failBeforeStep index = none) :
    (s.global_step % it.hook_freq ≠ 0 →
      run_hooks it index true true none true eh s = (s, none) ∧
      run_hooks it index false false (some results) false eh s = (s, none)) ∧
    (s.global_step % it.hook_freq = 0 →
      run_hooks it index true true none true eh s
        = ({ s with trace := s.trace ++ (if eh then it.epoch_hooks else it.hooks).map (fun p => Ev.before_step p.1 index) }, none)) ∧
    (s.global_step % it.hook_freq = 0 →
      (∀ p, p ∈ (if eh then it.epoch_hooks else it.hooks) →
        p.2.failAfterStep index = none ∧ p.2.invokeOnAfterStep index = []) →
      run_hooks it index false false (some results) false eh s
        = ({ s with trace := s.trace ++ (if eh then it.epoch_hooks else it.hooks).map (fun p => Ev.after_step p.1 index) }, none)) := by
  refine ⟨?_, ?_, ?_⟩
  · intro h
    have hcond : (s.global_step % it.hook_freq == 0) = false := by
      simp [h]
    constructor
    · unfold run_hooks
      simp [hcond]
    · unfold run_hooks
      simp [hcond]
  · intro h
    have hcond : (s.global_step % it.hook_freq == 0) = true := by
      simp [h]
    unfold run_hooks
    simp only [hcond, Option.isSome_none, Bool.and_true, Bool.true_and,
      Bool.and_self, Bool.or_false, Bool.true_or, if_true, if_pos]
    exact dispatchBeforeStep_noFail index _ hno s
  · intro h hno2
    have hcond : (s.global_step % it.hook_freq == 0) = true := by
      simp [h]
    unfold run_hooks
    simp only [hcond, Option.isSome_some, Option.getD_some, Bool.and_true,
      Bool.true_and, Bool.and_self, Bool.or_true, Bool.true_or, Bool.and_false,
      Bool.false_and, if_true, if_pos, Bool.false_eq_true, if_false]
    exact dispatchAfterStep_noFail index results _ hno2 s

/-- C1 witness: with hook frequency 2 and one registered hook, a step
dispatch at global step 1 fires nothing, while at global step 0 the
fetches/feeds dispatch fires the hook's full `before_step` callback and the
results-carrying dispatch fires its full `after_step` callback. -/
theorem C1_witness :
    (run_hooks itFreq2 0 true true none true false
        { st0 3 with global_step := 1 } = ({ st0 3 with global_step := 1 }, none)) ∧
    (run_hooks itFreq2 0 true true none true false (st0 3)
      = ({ st0 3 with trace := [Ev.before_step 0 0] }, none)) ∧
    (run_hooks itFreq2 0 false false
        (some [(Split.train, lazy_split_op itFreq2 0 Split.train)]) false false (st0 3)
      = ({ st0 3 with trace := [Ev.after_step 0 0] }, none)) := by
  have hno : ∀ p, p ∈ (if false then itFreq2.epoch_hooks else itFreq2.hooks) →
      p.2.failBeforeStep 0 = none := by
    intro p hp
    have he : (if false then itFreq2.epoch_hooks else itFreq2.hooks)
        = [(0, noFailHook)] := rfl
    rw [he, List.mem_singleton] at hp
    subst hp
    rfl
  have hno2 : ∀ p, p ∈ (if false then itFreq2.epoch_hooks else itFreq2.hooks) →
      p.2.failAfterStep 0 = none ∧ p.2.invokeOnAfterStep 0 = [] := by
    intro p hp
    have he : (if false then itFreq2.epoch_hooks else itFreq2.hooks)
        = [(0, noFailHook)] := rfl
    rw [he, List.mem_singleton] at hp
    subst hp
    exact ⟨rfl, rfl⟩
  refine ⟨?_, ?_, ?_⟩
  · exact ((C1_theorem itFreq2 0 false [] { st0 3 with global_step := 1 }
      hno).1 (by decide)).1
  · have h2 := (C1_theorem itFreq2 0 false [] (st0 3) hno).2.1 (by decide)
    rw [h2]
    decide
  · have h3 := (C1_theorem itFreq2 0 false
      [(Split.train, lazy_split_op itFreq2 0 Split.train)] (st0 3) hno).2.2
      (by decide) hno2
    rw [h3]
    decide

/-- C1 counterexample: at global step 1 with hook frequency 2 (one hook
registered), a step-scoped dispatch fires nothing at all — the state (and
its trace) is unchanged — rather than delivering a degenerate index-only
epoch-style callback as the claim states. -/
theorem C1_counterexample :
    ((1 : Nat) % itFreq2.hook_freq ≠ 0) ∧
    itFreq2.hooks.length = 1 ∧
    run_hooks itFreq2 0 true true none true false { st0 3 with global_step := 1 }
      = ({ st0 3 with global_step := 1 }, none) ∧
    run_hooks itFreq2 0 false false
        (some [(Split.train, lazy_split_op itFreq2 0 Split.train)]) false false
        { st0 3 with global_step := 1 }
      = ({ st0 3 with global_step := 1 }, none) := by
  refine ⟨by decide, by decide, by decide, by decide⟩

/-- C2 (amended): an exception raised inside a hook lifecycle callback
aborts the remaining dispatch for that call (no later-registered hook
receives that callback), is then delivered via `at_exception` to every
step-scoped registered hook, in registration order, and the original
exception propagates unmodified out of `iterate`.  (Epoch-scoped hooks are
not notified, and because `before_step` fires inside thunk materialization
triggered from a hook's `after_step`, an `after_step` call of the same tick
has already begun when `before_step` raises.) -/
theorem C2_theorem :
    (∀ (it : It) (s s' : St) (e : Err), _iterate it s = (s', some e) →
      iterate it s = ({ s' with trace := s'.trace ++ it.hooks.map (fun p => Ev.at_exception p.1 e) }, some e)) ∧
    (∀ (f : Nat × Hook → St → St × Option Err) (p : Nat × Hook)
      (rest : List (Nat × Hook)) (s s' : St) (e : Err), f p s = (s', some e) →
      dispatchHooks f (p :: rest) s = (s', some e)) := by
  constructor
  · intro it s s' e h
    unfold iterate
    rw [h]
    dsimp only
    rw [handle_exception_eq]
  · intro f p rest s s' e h
    unfold dispatchHooks
    rw [h]
    rfl

/-- C2 witness: in the scenario where the hook with id 0 invokes the train
thunk and raises exception 5 from `before_step`, `iterate` ends with
`at_exception` on the step-scoped hooks and re-raises exception 5; a
dispatch whose first callback raises stops at that callback. -/
theorem C2_witness :
    iterate itRaise (st0 1)
      = ({ (_iterate itRaise (st0 1)).1 with trace := (_iterate itRaise (st0 1)).1.trace ++ itRaise.hooks.map (fun p => Ev.at_exception p.1 (Err.userErr 5)) }, some (Err.userErr 5)) ∧
    dispatchHooks (hookBeforeStep 0) [(0, raiserHook)] (st0 1)
      = ((st0 1).emit (Ev.before_step 0 0), some (Err.userErr 5)) := by
  constructor
  · exact C2_theorem.1 itRaise (st0 1) (_iterate itRaise (st0 1)).1
      (Err.userErr 5) (by decide)
  · exact C2_theorem.2 (hookBeforeStep 0) (0, raiserHook) [] (st0 1)
      ((st0 1).emit (Ev.before_step 0 0)) (Err.userErr 5) (by decide)

/-- C2 counterexample: in a run where hook 0 (step-scoped) invokes the train
thunk from `after_step` and raises exception 5 from `before_step`, and hook
1 is registered epoch-scoped: the exception propagates, but the trace shows
that `after_step` for that tick HAD been called (it is what triggered the
failing `before_step`), and the epoch-scoped hook 1 never receives
`at_exception` — refuting both "after_step for that tick is never called"
and "at_exception is invoked on every registered hook". -/
theorem C2_counterexample :
    (iterate itRaise (st0 1)).2 = some (Err.userErr 5) ∧
    (iterate itRaise (st0 1)).1.trace
      = [Ev.before_epoch 0 0, Ev.after_step 0 0, Ev.pull Split.train,
         Ev.before_step 0 0, Ev.at_exception 0 (Err.userErr 5)] ∧
    Ev.after_step 0 0 ∈ (iterate itRaise (st0 1)).1.trace ∧
    Ev.at_exception 1 (Err.userErr 5) ∉ (iterate itRaise (st0 1)).1.trace := by
  refine ⟨by decide, by decide, by decide, by decide⟩

/-- C3 (amended): `_handle_sigterm` invokes `at_exception` with the
structured `ShutdownRequest` condition exactly once per step-scoped
registered hook, in registration order, and only afterwards exits the
process with the success status 0; epoch-scoped hooks are not notified, and
nothing else in the state changes. -/
theorem C3_theorem (it : It) (s : St) :
    _handle_sigterm it s
      = { s with trace := s.trace
          ++ it.hooks.map (fun p => Ev.at_exception p.1 Err.shutdownRequest)
          ++ [Ev.exitCode 0] } := by
  unfold _handle_sigterm
  rw [handle_exception_eq]
  simp [St.emit, List.append_assoc]

/-- C3 counterexample: with one step-scoped hook (id 0) and one epoch-scoped
hook (id 1) registered, the SIGTERM handler notifies only hook 0 before
exiting — the epoch-scoped hook's `at_exception` is never invoked, refuting
"every registered hook's at_exception callback is invoked exactly once". -/
theorem C3_counterexample :
    (_handle_sigterm itTwoScopes (st0 1)).trace
      = [Ev.at_exception 0 Err.shutdownRequest, Ev.exitCode 0] ∧
    itTwoScopes.epoch_hooks.length = 1 ∧
    Ev.at_exception 1 Err.shutdownRequest ∉ (_handle_sigterm itTwoScopes (st0 1)).trace := by
  refine ⟨by decide, by decide, by decide⟩

/-- C4 (amended): over any `iterate` run, `global_step` is non-decreasing;
with `test_mode` false its net change equals the number of
`increment_global_step` calls recorded (one per completed inner-loop
training tick, whether or not that tick pulled a batch); with `test_mode`
true it never changes. -/
theorem C4_theorem (it : It) (s : St) :
    s.global_step ≤ (iterate it s).1.global_step ∧
    (it.config.test_mode = false →
      (iterate it s).1.global_step + s.trace.count Ev.incr
        = s.global_step + (iterate it s).1.trace.count Ev.incr) ∧
    (it.config.test_mode = true →
      (iterate it s).1.global_step = s.global_step) :=
  gsFacts_iterate it s

/-- C4 witness: the global-step discipline evaluated on two concrete runs,
one training run and one dry run. -/
theorem C4_witness :
    (st0 1).global_step ≤ (iterate itNoHooks (st0 1)).1.global_step ∧
    (iterate itNoHooks (st0 1)).1.global_step + (st0 1).trace.count Ev.incr
      = (st0 1).global_step + (iterate itNoHooks (st0 1)).1.trace.count Ev.incr ∧
    (iterate itTest (st0 2)).1.global_step = (st0 2).global_step :=
  ⟨(C4_theorem itNoHooks (st0 1)).1,
   (C4_theorem itNoHooks (st0 1)).2.1 rfl,
   (C4_theorem itTest (st0 2)).2.2 rfl⟩

/-- C4 counterexample: a one-epoch training run with no hooks processes no
batch at all (no pull ever happens), yet `global_step` still advances from 0
to 1 — refuting "increments by exactly 1 per training batch actually
processed". -/
theorem C4_counterexample :
    (st0 1).global_step = 0 ∧
    (iterate itNoHooks (st0 1)).1.global_step = 1 ∧
    (iterate itNoHooks (st0 1)).1.trace.count (Ev.pull Split.train) = 0 := by
  refine ⟨by decide, by decide, by decide⟩

/-- C5 (amended): every invocation of a lazy split thunk re-materializes:
it pulls exactly one further batch from the split stream, and when it
returns normally it runs the fetch graph exactly once more — there is no
caching, so a second invocation within the same tick pulls a second batch
and re-runs the fetch graph. -/
theorem C5_theorem (it : It) (eh sa : Bool) (index : Nat) (sp : Split) (s : St) :
    (split_op_core it eh sa index sp s).1.trace.count (Ev.pull sp)
      = s.trace.count (Ev.pull sp) + 1 ∧
    ((split_op_core it eh sa index sp s).2 = none →
      (split_op_core it eh sa index sp s).1.trace.count (Ev.runFetch sp)
        = s.trace.count (Ev.runFetch sp) + 1) := by
  unfold split_op_core
  dsimp only
  set x := (({ s with cur_split := some sp, active := if sa then true else s.active } : St).setStream sp (({ s with cur_split := some sp, active := if sa then true else s.active } : St).getStream sp).pullOne).emit (Ev.pull sp) with hx
  have hp : x.trace.count (Ev.pull sp) = s.trace.count (Ev.pull sp) + 1 := by
    rw [hx, emit_trace, setStream_trace]
    exact count_snoc_eq _ _
  have hf : x.trace.count (Ev.runFetch sp) = s.trace.count (Ev.runFetch sp) := by
    rw [hx, emit_trace, setStream_trace]
    exact count_snoc_ne _ _ _ (by simp)
  rcases hr : run_hooks it index true true none true eh x with ⟨s1, e1⟩
  have hc1 : s1.trace.count (Ev.pull sp) = x.trace.count (Ev.pull sp) := by
    have := cnt_run_hooks_none_nonhook (Ev.pull sp)
      (by intro h i; exact ⟨by simp, by simp, by simp, by simp⟩)
      it index true true true eh x
    rw [hr] at this
    exact this
  have hc2 : s1.trace.count (Ev.runFetch sp) = x.trace.count (Ev.runFetch sp) := by
    have := cnt_run_hooks_none_nonhook (Ev.runFetch sp)
      (by intro h i; exact ⟨by simp, by simp, by simp, by simp⟩)
      it index true true true eh x
    rw [hr] at this
    exact this
  cases e1 with
  | some e =>
    dsimp only [bindE]
    constructor
    · omega
    · intro hcontra
      cases hcontra
  | none =>
    dsimp only [bindE]
    constructor
    · rw [emit_trace, count_snoc_ne _ _ _ (by simp)]
      omega
    · intro _
      rw [emit_trace, count_snoc_eq]
      omega

/-- C5 witness: a concrete thunk invocation that returns normally pulls
exactly one batch and runs the fetch graph exactly once. -/
theorem C5_witness :
    (split_op_core itNoHooks false false 0 Split.train (st0 3)).1.trace.count
        (Ev.pull Split.train)
      = (st0 3).trace.count (Ev.pull Split.train) + 1 ∧
    (split_op_core itNoHooks false false 0 Split.train (st0 3)).1.trace.count
        (Ev.runFetch Split.train)
      = (st0 3).trace.count (Ev.runFetch Split.train) + 1 :=
  ⟨(C5_theorem itNoHooks false false 0 Split.train (st0 3)).1,
   (C5_theorem itNoHooks false false 0 Split.train (st0 3)).2 (by decide)⟩

/-- C5 counterexample: a hook that invokes the same tick's train thunk twice
causes two batch pulls and two fetch-graph runs within that single tick —
refuting the single-materialization claim (no caching happens). -/
theorem C5_counterexample :
    (innerTick itDouble 0 (st0 3)).1.trace.count (Ev.pull Split.train) = 2 ∧
    (innerTick itDouble 0 (st0 3)).1.trace.count (Ev.runFetch Split.train) = 2 ∧
    (st0 3).trace.count (Ev.pull Split.train) = 0 ∧
    (innerTick itDouble 0 (st0 3)).1.batch_step = 0 := by
  refine ⟨by decide, by decide, by decide, by decide⟩

/-- C6 (amended): in an epoch run outside test mode over a train stream of
length `L`, the inner batch loop completes at most `L` ticks (at most `L`
`increment_global_step` calls are recorded), and the event
`resetEv train` — the train stream's `reset()` — is recorded at most twice
per epoch: at most once by the inner loop (exactly when it terminates early
via the epoch boundary or the step budget) and at most once by the train
pass of the per-split epoch phase (exactly when that pass ends via boundary
or inactivity), not exactly once as claimed. -/
theorem C6_theorem (it : It) (ep : Nat) (s : St)
    (htm : it.config.test_mode = false) :
    (oneEpoch it ep s).1.trace.count Ev.incr
      ≤ s.trace.count Ev.incr + s.train.length ∧
    (oneEpoch it ep s).1.trace.count (Ev.resetEv Split.train)
      ≤ s.trace.count (Ev.resetEv Split.train) + 2 :=
  ⟨cnt_oneEpoch_incr it ep s htm, cnt_oneEpoch_reset it ep s⟩

/-- C6 witness: the per-epoch tick and reset bounds evaluated on a concrete
one-epoch training run. -/
theorem C6_witness :
    (oneEpoch itPuller 0 (st0 1)).1.trace.count Ev.incr
      ≤ (st0 1).trace.count Ev.incr + (st0 1).train.length ∧
    (oneEpoch itPuller 0 (st0 1)).1.trace.count (Ev.resetEv Split.train)
      ≤ (st0 1).trace.count (Ev.resetEv Split.train) + 2 :=
  C6_theorem itPuller 0 (st0 1) rfl

/-- C6 counterexample: a one-epoch training run over a train stream of
length 1 whose hook materializes the batch each tick calls the train
stream's `reset()` twice within the epoch (once when the inner loop hits the
epoch boundary, once more when the per-split epoch phase gives up on the
train split) — refuting "reset() is called exactly once per epoch". -/
theorem C6_counterexample :
    itPuller.num_epochs = 1 ∧
    (st0 1).train.length = 1 ∧
    (iterate itPuller (st0 1)).2 = none ∧
    (iterate itPuller (st0 1)).1.trace.count (Ev.resetEv Split.train) = 2 := by
  refine ⟨by decide, by decide, by decide, by decide⟩

/-- C7: the epoch-phase step dispatch to epoch-scoped hooks is gated by the
same `global_step % hook_freq == 0` condition as step-scoped dispatch; on a
tick where `global_step % hook_freq ≠ 0` no epoch-scoped hook is invoked
(the dispatch returns the state unchanged), hence the tick's thunk is never
invoked, the `active` flag stays false, and the tick resets the split and
breaks, so the per-split loop terminates after that tick. -/
theorem C7_theorem (it : It) (sp : Split) (index : Nat) (s : St)
    (h : s.global_step % it.hook_freq ≠ 0) :
    run_hooks it index false false (some [(sp, lazy_split_op_epoch it index sp)])
        false true s = (s, none) ∧
    epochTick it sp index s
      = ((({ s with batch_step := index, active := false } : St).setStream sp
            (({ s with batch_step := index, active := false } : St).getStream sp).reset).emit
          (Ev.resetEv sp), none, true) ∧
    (∀ rest : List Nat, epochSplitLoop it sp (index :: rest) s
      = ((epochTick it sp index s).1, none)) := by
  have hcond : (s.global_step % it.hook_freq == 0) = false := by
    simp [h]
  have h1 : run_hooks it index false false
      (some [(sp, lazy_split_op_epoch it index sp)]) false true s = (s, none) := by
    unfold run_hooks
    simp [hcond]
  have h2 : epochTick it sp index s
      = ((({ s with batch_step := index, active := false } : St).setStream sp
            (({ s with batch_step := index, active := false } : St).getStream sp).reset).emit
          (Ev.resetEv sp), none, true) := by
    unfold epochTick
    dsimp only
    have hcond2 : run_hooks it index false false
        (some [(sp, lazy_split_op_epoch it index sp)]) false true
        ({ s with batch_step := index, active := false } : St)
        = (({ s with batch_step := index, active := false } : St), none) := by
      unfold run_hooks
      simp [hcond]
    rw [hcond2]
    simp
  refine ⟨h1, h2, ?_⟩
  intro rest
  unfold epochSplitLoop
  rw [h2]

/-- C7 witness: with hook frequency 2, an epoch-scoped hook registered and
global step 1, the epoch-phase tick invokes no hook, leaves `active` false,
emits only the split reset and terminates its loop. -/
theorem C7_witness :
    run_hooks itEpochHooks 0 false false
        (some [(Split.train, lazy_split_op_epoch itEpochHooks 0 Split.train)])
        false true { st0 2 with global_step := 1 }
      = ({ st0 2 with global_step := 1 }, none) ∧
    (epochTick itEpochHooks Split.train 0 { st0 2 with global_step := 1 }).2.2 = true ∧
    (epochTick itEpochHooks Split.train 0 { st0 2 with global_step := 1 }).1.active = false ∧
    (epochTick itEpochHooks Split.train 0 { st0 2 with global_step := 1 }).1.trace
      = [Ev.resetEv Split.train] := by
  have h := C7_theorem itEpochHooks Split.train 0
    { st0 2 with global_step := 1 } (by decide)
  refine ⟨h.1, ?_, ?_, ?_⟩
  · rw [h.2.1]
  · rw [h.2.1]
    decide
  · rw [h.2.1]
    decide

/-- C8: in test mode with no validation stream supplied (and hooks that do
not raise), `iterate` completes without an exception, `global_step` stays at
its initial value, the fallback warning is recorded, no inner-loop tick runs
(the fast loop is bounded to zero steps), and the whole run is exactly one
epoch pass over the fallback state in which the validation split has been
set to the training stream. -/
theorem C8_theorem (it : It) (s : St) (htm : it.config.test_mode = true)
    (hval : s.validation = none) (hvt : s.valIsTrain = false)
    (hnf : NoFailHooks it) :
    (iterate it s).2 = none ∧
    (iterate it s).1.global_step = s.global_step ∧
    Ev.warn ∈ (iterate it s).1.trace ∧
    (iterate it s).1.trace.count Ev.incr = s.trace.count Ev.incr ∧
    iterate it s = oneEpoch it 0 ({ s.emit .warn with valIsTrain := true }) := by
  have hstruct : _iterate it s
      = oneEpoch it 0 ({ s.emit .warn with valIsTrain := true }) := by
    unfold _iterate
    dsimp only
    have hcond : (it.config.test_mode && s.validation.isNone && !s.valIsTrain)
        = true := by
      rw [htm, hval, hvt]
      rfl
    rw [if_pos hcond]
    have hne : List.range (if it.config.test_mode = true then 1 else it.num_epochs)
        = [0] := by
      rw [htm]
      simp
      decide
    rw [hne]
    exact epochLoop_one it 0 _
  have hit : iterate it s = _iterate it s := iterate_eq_of_noFail it hnf s
  have hwcount : ({ s.emit .warn with valIsTrain := true } : St).trace.count Ev.incr
      = s.trace.count Ev.incr := by
    show (s.trace ++ [Ev.warn]).count Ev.incr = s.trace.count Ev.incr
    exact count_snoc_ne _ _ _ (by simp)
  refine ⟨?_, ?_, ?_, ?_, ?_⟩
  · rw [hit]
    exact noErr_iterate_inner it hnf s
  · exact (gsFacts_iterate it s).2.2 htm
  · rw [hit, hstruct]
    have hpre := rel_oneEpoch (driverRel_traceMono it) 0
      ({ s.emit .warn with valIsTrain := true } : St)
    refine hpre.subset ?_
    show Ev.warn ∈ s.trace ++ [Ev.warn]
    exact List.mem_append_right _ (List.mem_singleton_self _)
  · rw [hit, hstruct]
    rw [cnt_oneEpoch_incr_test it 0 _ htm]
    exact hwcount
  · rw [hit]
    exact hstruct

/-- C8 witness: the dry-run fallback behaviour evaluated on a concrete
iterator in test mode with one benign hook and no validation stream. -/
theorem C8_witness :
    (iterate itTest (st0 2)).2 = none ∧
    (iterate itTest (st0 2)).1.global_step = (st0 2).global_step ∧
    Ev.warn ∈ (iterate itTest (st0 2)).1.trace ∧
    (iterate itTest (st0 2)).1.trace.count Ev.incr = (st0 2).trace.count Ev.incr ∧
    iterate itTest (st0 2)
      = oneEpoch itTest 0 ({ (st0 2).emit .warn with valIsTrain := true }) :=
  C8_theorem itTest (st0 2) rfl rfl rfl noFail_itTest

/-- C9 (amended): `make_feeds` is a structure-preserving shallow copy: the
leaf callable of the `walk` traversal is the identity, so the feed payload
has the same nested shape AND the very same leaf objects as the raw batch —
leaf data is aliased, and the data observed through the feed payload is the
data observed through the raw batch under every heap. -/
theorem C9_theorem (b : PVal) (heap : Nat → Int) :
    make_feeds b = b ∧
    leafAddrs (make_feeds b) = leafAddrs b ∧
    readVal heap (make_feeds b) = readVal heap b := by
  have h : make_feeds b = b := walk_id b
  exact ⟨h, by rw [h], by rw [h]⟩

/-- C9 counterexample: for the concrete batch holding one array at heap
address 0, the feed payload's leaf is the same address 0; writing 5 through
that address changes the data subsequently seen through the raw batch from
`[0]` to `[5]` — refuting "its leaf data is not aliased with the raw batch,
so a fetch op mutating the feed payload cannot change data seen by a later
fetch op". -/
theorem C9_counterexample :
    leafAddrs (make_feeds pb0) = [0] ∧
    leafAddrs pb0 = [0] ∧
    readVal h0 pb0 = [0] ∧
    readVal (Function.update h0 0 5) pb0 = [5] := by
  have hm : make_feeds pb0 = pb0 := walk_id pb0
  have hl : leafAddrs pb0 = [0] := by
    simp [pb0, leafAddrs, leafAddrsList]
  refine ⟨by rw [hm, hl], hl, ?_, ?_⟩
  · unfold readVal
    rw [hl]
    rfl
  · unfold readVal
    rw [hl]
    simp [Function.update_same]

/-- C10: during dataset setup, when the parsed attribute table and the
parsed partition table have different numbers of rows, `_prepare` raises
`ValueError("data files do not match")`, so the dataset constructor fails
during preparation and no example can ever be served — the error is raised
before any epoch begins. -/
theorem C10_theorem (files : RawFiles) (split : String)
    (h : files.attrRows.length ≠ files.evalPartitionRows.length) :
    _prepare files = Except.error dataMismatchMsg ∧
    celebaInit files split = Except.error dataMismatchMsg := by
  have hcnd : ¬((files.attrRows.map (fun r => r.2)).length
      = (files.evalPartitionRows.map (fun r => r.2)).length) := by
    simp only [List.length_map]
    exact h
  have hp : _prepare files = Except.error dataMismatchMsg := by
    unfold _prepare
    dsimp only
    rw [if_neg hcnd]
  refine ⟨hp, ?_⟩
  unfold celebaInit
  rw [hp]
  rfl

/-- C10 witness: concrete label files with one partition row and an empty
attribute table make both `_prepare` and the full dataset construction fail
with the ValueError. -/
theorem C10_witness :
    filesBad.attrRows.length ≠ filesBad.evalPartitionRows.length ∧
    _prepare filesBad = Except.error dataMismatchMsg ∧
    celebaInit filesBad splitTrain = Except.error dataMismatchMsg :=
  ⟨by decide,
   (C10_theorem filesBad splitTrain (by decide)).1,
   (C10_theorem filesBad splitTrain (by decide)).2⟩

